import Mathlib

/-!
# Verification of the rete dataflow engine (`src/engine/index.js`)

This file is a shallow embedding of the engine's scheduler/executor
(`Engine` class, `src/src/engine/index.js`) together with proofs settling
the frozen claims about it.

Modelling choices, documented once here and at the relevant definitions:

* JavaScript is single-threaded with run-to-completion scheduling of
  microtasks.  The engine's `async` functions are embedded as a
  deterministic state-passing interpreter in which each `await` of an
  already-determined promise continues immediately and the callback arrays
  built by `Promise.all` are traversed left to right in declared order.
  The two places where logical concurrency is essential — the per-node
  single-flight gate (`lock`/`unlock`/`processNode`) and the
  order-preservation of `Promise.all` result arrays — are additionally
  modelled by a nondeterministic small-step system (`SingleFlight`
  namespace) and by a completion-order-indexed array-filling model
  (`PromiseAll` namespace), so the concurrency claims are settled against
  arbitrary interleavings, not against the sequentialized interpreter.

* The heap matters for the frame claim about `copy` (per-run shallow node
  copies), so node objects live in an explicit store addressed by natural
  numbers; the node maps (`data.nodes`) map node ids to addresses.  The
  nested socket/connection containers (`node.inputs`, `node.outputs`) are
  never written by the engine, so they are kept in a fixed read-only
  environment addressed by the `inputsRef`/`outputsRef` fields of node
  objects; sharing of these containers between the template graph and the
  per-run copy is then literal sharing of the reference.

* Promises that can remain pending are modelled explicitly: the engine's
  `abort()` stores the new promise's resolver in `this.onAbort`, and that
  resolver is invoked only by `processDone` (on an aborted run) or by a
  later `abort()` call.  The resolvers/continuations that can actually be
  stored there are defunctionalized in the `AbortK` type.  A run whose
  control flow suspends on such a promise with no remaining task that
  could ever resolve it is reported by the interpreter as a run whose
  promise never settles (`none` outcome).

* External collaborators are oracles: the schema validator is a parameter
  `validator` (a pure predicate, per spec §6), and the component registry
  is a parameter `w` mapping a component name and the resolved input data
  to the outputs the worker writes plus an optional raised value (`none`
  means the worker returned normally).  Worker functions in the source
  also receive the node object and the run's extra arguments; these do not
  feed back into the scheduler, so the oracle may be thought of as closing
  over them.

* `Recursion` (cycle detector) and the event bus `trigger` are code of the
  repository that is not under `src/`; they are modelled from the spec
  where they are used (see `detect` and `pushEv`).
-/

/-- An input-side connection: `{ node, output }` — the upstream node id and
the key of the upstream output socket it reads (source lines 104-112). -/
structure InConn where
  node : Nat
  output : String
  deriving DecidableEq, Repr

/-- An output-side connection: `{ node, input }` — the downstream node id
(`forwardProcess` only reads `c.node`, line 158). -/
structure OutConn where
  node : Nat
  input : String
  deriving DecidableEq, Repr

/-- The outputs container a worker fills: a string-keyed object of values
(values abstracted as naturals). -/
abbrev OutData := List (String × Nat)

/-- The resolved input data passed to a worker: for each input-socket key,
the list of values collected over that socket's connections.  An entry is
`none` when the corresponding connection produced `undefined` (aborted or
absent upstream, or a missing output key), matching lines 109-112. -/
abbrev InputData := List (String × List (Option Nat))

/-- Run lifecycle states (the `State` enum: AVAILABLE / PROCESSED / ABORT). -/
inductive EState where
  | available
  | processed
  | abort
  deriving DecidableEq, Repr

/-- Defunctionalized contents of `this.onAbort`.  The source stores there
either the initial no-op `() => {}`, or the resolver `ret` of a pending
`abort()` promise.  The resolvers that arise are distinguished by what
resuming them would run:

* `noop` — the initial `() => {}` (constructor line 18, and line 59);
* `abandoned` — the resolver of an `abort()` promise that no caller awaits
  (the un-awaited `this.abort()` calls at lines 110 and 129); firing it
  resolves a promise nobody holds, with no observable effect;
* `throwErrorK msg dat` — the resolver of the `await this.abort()` inside
  `throwError` (line 30) when `throwError` was reached from `validate`
  (whose own promise is discarded by `process`, see line 215): firing it
  resumes lines 31-33 — `trigger('error', {message, data})` then
  `processDone()` — and the returned `'error'` is discarded;
* `blockedRun` — the same resolver when `throwError` was reached from
  `processStartNode` (line 196) and is awaited by the whole
  `process` chain: while it is installed the run's promise is pending.
  In a run where no further engine code can execute (the sequential chain
  is suspended on it), it is never fired and the run never settles.  The
  doubly-degenerate path (validation already failed *and* the start id is
  missing) would fire it; no theorem below exercises that path, and the
  model conservatively leaves the run pending there. -/
inductive AbortK where
  | noop
  | abandoned
  | throwErrorK (msg : String) (dat : Option Nat)
  | blockedRun
  deriving DecidableEq, Repr

/-- Events emitted on the (external) event bus: `trigger('error', {message,
data})` and `trigger('warn', e)` where `e` is the raw raised value. -/
inductive Ev where
  | error (msg : String) (dat : Option Nat)
  | warn (e : Nat)
  deriving DecidableEq, Repr

/-- The settled value of the promise returned by `process`: the three
literals of line 223 / line 34, or `undef` for the bare `return;` of
line 214. -/
inductive Outcome where
  | success
  | aborted
  | error
  | undef
  deriving DecidableEq, Repr

/-- Abnormal results of the interpreter.  `typeError` models the JavaScript
`TypeError` raised by reading `node.outputs` when `node` is `undefined`
(line 154); it propagates like a promise rejection.  `stuck` marks a task
suspended on the lock queue with no concurrent task left to release it (a
genuine deadlock of the sequential schedule, e.g. a cyclic pull).
`fuelExhausted` is not a behaviour of the code: it marks that the
interpreter's recursion budget, a model artefact, ran out. -/
inductive Err where
  | typeError
  | stuck
  | fuelExhausted
  deriving DecidableEq, Repr

instance {ε α : Type} [DecidableEq ε] [DecidableEq α] : DecidableEq (Except ε α) := fun x y =>
  match x, y with
  | .error e, .error f =>
    if h : e = f then .isTrue (by rw [h]) else .isFalse (by simp [h])
  | .ok a, .ok b =>
    if h : a = b then .isTrue (by rw [h]) else .isFalse (by simp [h])
  | .error _, .ok _ => .isFalse (by simp)
  | .ok _, .error _ => .isFalse (by simp)

/-- A node object on the heap.  Mirrors the fields the engine reads/writes
on a node: `name` (line 123), the references to the read-only
`inputs`/`outputs` containers (lines 101, 154), and the per-run execution
state: the memoized result slot `outputData` (lines 142-147, 205), the
gate flag `busy` (lines 83-95) and the waiter queue `unlockPool` (`none`
models the field being absent before `lock` first initializes it,
line 82).  The queue holds task identifiers in the small-step model; in
the sequential interpreter it is always `some []` once initialized. -/
structure NodeObj where
  name : String
  inputsRef : Nat
  outputsRef : Nat
  outputData : Option OutData
  busy : Bool
  unlockPool : Option (List Nat)
  deriving DecidableEq, Repr

/-- Fallback object for dangling addresses; never reached for addresses
produced by `initState`/`copyGraph`. -/
def dummyNode : NodeObj :=
  { name := "", inputsRef := 0, outputsRef := 0, outputData := none,
    busy := false, unlockPool := none }

/-- The heap of node objects: an association list from address to object,
plus the next fresh address. -/
structure Store where
  objs : List (Nat × NodeObj)
  next : Nat
  deriving DecidableEq, Repr

/-- Dereference an address (JavaScript object references cannot dangle;
`dummyNode` is returned for addresses outside the store). -/
def Store.get (st : Store) (a : Nat) : NodeObj :=
  ((st.objs.find? (fun p => p.1 == a)).map Prod.snd).getD dummyNode

/-- Update the object at an address in place. -/
def Store.upd (st : Store) (a : Nat) (f : NodeObj → NodeObj) : Store :=
  { st with objs := st.objs.map (fun p => if p.1 = a then (p.1, f p.2) else p) }

/-- Look up a key in an association list with `Nat` keys (JavaScript object
indexing `m[i]`, yielding `undefined` when absent). -/
def lookupId (m : List (Nat × Nat)) (i : Nat) : Option Nat :=
  (m.find? (fun p => p.1 == i)).map Prod.snd

/-- Look up a key in a string-keyed object (`outputs[c.output]`, line 112). -/
def lookupKey (od : OutData) (k : String) : Option Nat :=
  (od.find? (fun p => p.1 == k)).map Prod.snd

/-- The mutable state of an `Engine` instance during one `process` call:
the lifecycle state and `onAbort` slot, the events emitted so far on the
bus, the `console.warn` messages, the current `this.data.nodes` map
(node id → address) and the heap. -/
structure EngineSt where
  st : EState
  onAbort : AbortK
  events : List Ev
  warns : List String
  data : List (Nat × Nat)
  store : Store
  deriving DecidableEq, Repr

/-- Emit an event on the external bus (`this.trigger(...)`).  Modelled from
the spec: the bus (`Context`/`EngineEvents`, not under `src/`) delivers
named events to external subscribers; the model records the emission. -/
def pushEv (e : Ev) (s : EngineSt) : EngineSt :=
  { s with events := s.events ++ [e] }

def EngineSt.updNode (s : EngineSt) (a : Nat) (f : NodeObj → NodeObj) : EngineSt :=
  { s with store := s.store.upd a f }

/-- The `console.warn` text of lines 47-48. -/
def busyWarnMsg : String :=
  "The process is busy and has not been restarted.\n                Use abort() to force it to complete"

/-- The fixed message of line 196. -/
def notFoundMsg : String := "Node with such id not found"

/-- The fixed message of line 186. -/
def recursionMsg : String := "Recursion detected"

/-- `processStart` (lines 37-50): admit the run only from AVAILABLE; from
ABORT fail silently; from PROCESSED fail with the `console.warn` advisory. -/
def processStart (s : EngineSt) : Bool × EngineSt :=
  match s.st with
  | .available => (true, { s with st := .processed })
  | .abort => (false, s)
  | .processed => (false, { s with warns := s.warns ++ [busyWarnMsg] })

/-- Run a fired `onAbort` continuation at nesting depth 2.  Reached only
from `fireCont` below, with `onAbort` already reset, so the inner
`processDone` of a resumed `throwError` necessarily sees a non-ABORT state
and merely resets it to AVAILABLE. -/
def fireCont2 (c : AbortK) (s : EngineSt) : EngineSt :=
  match c with
  | .noop => s
  | .abandoned => s
  | .blockedRun => s
  | .throwErrorK m d => { pushEv (.error m d) s with st := .available }

/-- Invoke a stored `onAbort` resolver (`this.onAbort()`).  Resolving the
promise resumes whatever awaited it:

* `noop`, `abandoned`: no observable effect;
* `throwErrorK m d`: resumes `throwError` lines 31-33 — emits the
  `'error'` event, then runs `processDone()` (lines 52-63), which may in
  turn fire the (already reset) `onAbort` once more;
* `blockedRun`: resuming the suspended run is outside the modelled
  scenarios (see `AbortK`); no theorem reaches a state that fires it. -/
def fireCont (c : AbortK) (s : EngineSt) : EngineSt :=
  match c with
  | .noop => s
  | .abandoned => s
  | .blockedRun => s
  | .throwErrorK m d =>
    let s := pushEv (.error m d) s
    -- `this.processDone()` at line 32:
    let success := s.st ≠ .abort
    let s1 := { s with st := .available }
    if success then s1
    else fireCont2 s1.onAbort { s1 with onAbort := .noop }

/-- `processDone` (lines 52-63): success iff the state is not ABORT; reset
to AVAILABLE; on an aborted run fire and clear `onAbort`. -/
def processDone (s : EngineSt) : Bool × EngineSt :=
  let success := s.st ≠ .abort
  let s1 := { s with st := .available }
  if success then (true, s1)
  else (false, fireCont s1.onAbort { s1 with onAbort := .noop })

/-- `abort` (lines 65-78).  `k` is what resuming the new promise's resolver
`ret` would run (see `AbortK`).  Returns whether the promise resolved
immediately (the `else ret()` branch, state AVAILABLE); otherwise the
resolver is parked in `onAbort`.  In the already-ABORT branch the source
fires the previous resolver and installs the new one; the fired
continuation runs as a microtask, i.e. after `this.onAbort = ret`
(line 73), so it observes the new resolver installed. -/
def abortWith (k : AbortK) (s : EngineSt) : Bool × EngineSt :=
  match s.st with
  | .processed => (false, { s with st := .abort, onAbort := k })
  | .abort =>
    let old := s.onAbort
    (false, fireCont old { s with onAbort := k })
  | .available => (true, s)

/-- An un-awaited `this.abort()` call (lines 110 and 129): the promise's
resolver is abandoned. -/
def abortDrop (s : EngineSt) : EngineSt :=
  (abortWith .abandoned s).2

/-- JavaScript truthiness of the start id (`if (id)`, line 192): `null` /
`undefined` and the number `0` are falsy. -/
def truthy : Option Nat → Bool
  | none => false
  | some i => i != 0


/-- A template node as the caller's graph data provides it: component name
and the references to its socket containers.  Template node objects carry
no execution-state fields (`outputData`/`busy`/`unlockPool` are absent
until written — and the run only ever writes the per-run copies, which is
the frame claim). -/
structure TNode where
  name : String
  ins : Nat
  outs : Nat
  deriving DecidableEq, Repr

section Engine

-- The read-only socket environment: `ins r` is the contents of the inputs
-- container at reference `r` (input-socket key → its ordered connection
-- list); `outs r` likewise for outputs.  The engine never writes these
-- (it only reads them, at lines 101-103 and 154-157).
variable (ins : Nat → List (String × List InConn))
variable (outs : Nat → List (String × List OutConn))

-- The component registry oracle: the worker of a component name applied to
-- the resolved input data, returning the outputs container it filled and
-- `some e` if it raised `e` (after filling the container partially),
-- `none` if it returned normally.  See the header comment.
variable (w : String → InputData → OutData × Option Nat)

-- The external schema validator oracle (`Validator.validate(this.id,
-- data)`, line 177): success flag and message.
variable (validator : List (Nat × Nat) → Bool × String)

/-- Successor node ids of node `i` along output connections, read from the
graph snapshot `tmpl` (node id → address) and the heap. -/
def succsOf (st : Store) (tmpl : List (Nat × Nat)) (i : Nat) : List Nat :=
  match lookupId tmpl i with
  | none => []
  | some a => (((outs ((st.get a).outputsRef)).map Prod.snd).flatten).map OutConn.node

/-- Modelled from the spec: the cycle detector (`Recursion`, imported at
line 4 from `./recursion`, not under `src/`).  Spec §4.2: depth-first
traversal tracking the active recursion path; a node revisited while still
on the active path is reported as the first detected cycle participant.
`fuel` bounds the depth; on an acyclic graph every path is simple, so
`tmpl.length + 1` levels are never exhausted (a path of that length would
repeat a node), and on a cyclic graph the on-path test fires first. -/
def detectFrom (st : Store) (tmpl : List (Nat × Nat)) :
    Nat → List Nat → Nat → Option Nat
  | 0, _, i => some i
  | fuel + 1, path, i =>
    if i ∈ path then some i
    else (succsOf outs st tmpl i).findSome? (detectFrom st tmpl fuel (path ++ [i]))

/-- Modelled from the spec (§4.2): run the depth-first search from every
node in graph-iteration order; return the first cycle participant found,
or `none` for an acyclic graph. -/
def detect (st : Store) (tmpl : List (Nat × Nat)) : Option Nat :=
  tmpl.findSome? (fun p => detectFrom outs st tmpl (tmpl.length + 1) [] p.1)

/-- The synchronous prefix of `validate` (lines 176-189) as observed by
`process`.  `process` (line 215) tests the *promise* returned by
`validate` for truthiness without awaiting it, so only the synchronous
prefix has run when `process` continues, and the boolean test is always
false (a promise object is truthy): only the state effects matter.  On a
failed check or a detected cycle, `throwError` (lines 29-35) runs up to
`await this.abort()`, which parks the resumption of lines 31-33 in
`onAbort` (see `AbortK.throwErrorK`); the state moves to ABORT
synchronously. -/
def validateSync (tmpl : List (Nat × Nat)) (s : EngineSt) : EngineSt :=
  let checking := validator tmpl
  if checking.1 = false then
    (abortWith (.throwErrorK checking.2 none) s).2
  else
    match detect outs s.store tmpl with
    | some n => (abortWith (.throwErrorK recursionMsg (some n)) s).2
    | none => s

/-- `copy` (lines 166-174): `Object.assign({}, data)` and
`Object.assign({}, data.nodes)` produce a fresh top-level container and a
fresh node map (modelled by the returned map being a new value), and each
node is replaced by `Object.assign({}, node)` — a fresh object at a fresh
address holding the same field values, so the `inputs`/`outputs`
references are shared with the original while the object identity is new. -/
def copyNodes (st : Store) : Nat → List (Nat × Nat) →
    List (Nat × Nat) × List (Nat × NodeObj)
  | _, [] => ([], [])
  | base, (i, a) :: rest =>
    let r := copyNodes st (base + 1) rest
    ((i, base) :: r.1, (base, st.get a) :: r.2)

/-- The per-run copy of the graph: the fresh node map together with the heap
extended by the fresh node objects. -/
def copyGraph (tmpl : List (Nat × Nat)) (st : Store) : List (Nat × Nat) × Store :=
  let r := copyNodes st st.next tmpl
  (r.1, { objs := st.objs ++ r.2, next := st.next + tmpl.length })

/-- `lock` (lines 80-90) under the sequential schedule: initialize the
waiter queue (`node.unlockPool = node.unlockPool || []`) and claim the
gate (`node.busy = true`).  The suspending branch (`busy && !outputData`)
has no concurrent task left to release the waiter, i.e. the sequential
run is deadlocked: reported as `Err.stuck`.  The concurrent protocol is
modelled in full in the `SingleFlight` namespace. -/
def lockSeq (a : Nat) (s : EngineSt) : Except Err EngineSt :=
  let nd := s.store.get a
  if nd.busy ∧ nd.outputData = none then .error .stuck
  else .ok (s.updNode a (fun n =>
    { n with unlockPool := some (n.unlockPool.getD []), busy := true }))

/-- `unlock` (lines 92-96): fire the queued resolvers (none under the
sequential schedule), clear the queue, release the gate. -/
def unlock (a : Nat) (s : EngineSt) : EngineSt :=
  s.updNode a (fun n => { n with unlockPool := some [], busy := false })

mutual

/-- `processNode` (lines 136-148).  Under the sequential schedule the
memoized slot `node.outputData` is installed settled: the source assigns
the pending `processWorker(node)` promise and unlocks before the worker
body runs; here the worker runs to completion between the slot check and
the unlock.  The reordering is observable only under concurrent
interleavings, which the `SingleFlight` model covers. -/
def processNode (fuel : Nat) (na : Option Nat) (s : EngineSt) :
    Except Err (Option OutData) × EngineSt :=
  match fuel with
  | 0 => (.error .fuelExhausted, s)
  | fuel + 1 =>
    if s.st = .abort then (.ok none, s)
    else
      match na with
      | none => (.ok none, s)
      | some a =>
        match lockSeq a s with
        | .error e => (.error e, s)
        | .ok s =>
          match (s.store.get a).outputData with
          | some od => (.ok (some od), unlock a s)
          | none =>
            match processNodeWorker fuel a s with
            | (.error e, s) => (.error e, s)
            | (.ok out, s) =>
              let s := s.updNode a (fun n => { n with outputData := some out })
              (.ok (some out), unlock a s)
termination_by (fuel, 0, 0)

/-- `processWorker` (lines 121-134): gather the inputs, look the component
up by the node's name and invoke it; a raised value is caught, triggers
`abort()` (not awaited) and a `'warn'` event carrying the raw value, and
the outputs container — as filled up to the failure — is returned. -/
def processNodeWorker (fuel : Nat) (a : Nat) (s : EngineSt) :
    Except Err OutData × EngineSt :=
  match extractInputData fuel a s with
  | (.error e, s) => (.error e, s)
  | (.ok idata, s) =>
    match w ((s.store.get a).name) idata with
    | (out, none) => (.ok out, s)
    | (out, some e) => (.ok out, pushEv (.warn e) (abortDrop s))
termination_by (fuel, 4, 0)

/-- `extractInputData` (lines 98-119): iterate the input sockets in
declared order (the for-of over `Object.keys(node.inputs)`). -/
def extractInputData (fuel : Nat) (a : Nat) (s : EngineSt) :
    Except Err InputData × EngineSt :=
  extractInputs fuel (ins ((s.store.get a).inputsRef)) s
termination_by (fuel, 3, 0)

/-- The loop body of `extractInputData`: one entry per socket key, in
declared order. -/
def extractInputs (fuel : Nat) (inputs : List (String × List InConn))
    (s : EngineSt) : Except Err InputData × EngineSt :=
  match inputs with
  | [] => (.ok [], s)
  | (key, conns) :: rest =>
    match extractConns fuel conns s with
    | (.error e, s) => (.error e, s)
    | (.ok vals, s) =>
      match extractInputs fuel rest s with
      | (.error e, s) => (.error e, s)
      | (.ok restData, s) => (.ok ((key, vals) :: restData), s)
termination_by (fuel, 2, inputs.length)

/-- The `Promise.all(conns.map(...))` of lines 104-113, sequentialized left
to right: resolve the upstream node of each connection through
`processNode`; a `null` result (`!outputs`) triggers an un-awaited
`abort()` and leaves the entry `undefined`, otherwise the entry is
`outputs[c.output]`.  That the declared order is preserved under
concurrent completion is proved in the `PromiseAll` model. -/
def extractConns (fuel : Nat) (conns : List InConn) (s : EngineSt) :
    Except Err (List (Option Nat)) × EngineSt :=
  match conns with
  | [] => (.ok [], s)
  | c :: rest =>
    match processNode fuel (lookupId s.data c.node) s with
    | (.error e, s) => (.error e, s)
    | (.ok outputs, s) =>
      let (v, s) : Option Nat × EngineSt :=
        match outputs with
        | none => (none, abortDrop s)
        | some od => (lookupKey od c.output, s)
      match extractConns fuel rest s with
      | (.error e, s) => (.error e, s)
      | (.ok vs, s) => (.ok (v :: vs), s)
termination_by (fuel, 1, conns.length)

end

mutual

/-- `forwardProcess` (lines 150-164): on ABORT return `null`; otherwise walk
every output socket's connections.  When `node` is `undefined` (a
connection to an id absent from `this.data.nodes` — `processNode`
tolerated it, line 137 — but `forwardProcess` is then invoked on the same
`undefined` value, line 161), `Object.keys(node.outputs)` raises a
`TypeError`, which rejects the surrounding promises. -/
def forwardProcess (fuel : Nat) (na : Option Nat) (s : EngineSt) :
    Except Err (Option Unit) × EngineSt :=
  match fuel with
  | 0 => (.error .fuelExhausted, s)
  | fuel + 1 =>
    if s.st = .abort then (.ok none, s)
    else
      match na with
      | none => (.error .typeError, s)
      | some a =>
        match forwardOutputs fuel (outs ((s.store.get a).outputsRef)) s with
        | (.error e, s) => (.error e, s)
        | (.ok _, s) => (.ok (some ()), s)
termination_by (fuel, 0, 0)

/-- The outer `Promise.all` over output sockets, sequentialized in declared
order. -/
def forwardOutputs (fuel : Nat) (sockets : List (String × List OutConn))
    (s : EngineSt) : Except Err Unit × EngineSt :=
  match sockets with
  | [] => (.ok (), s)
  | (_, conns) :: rest =>
    match forwardConns fuel conns s with
    | (.error e, s) => (.error e, s)
    | (.ok _, s) => forwardOutputs fuel rest s
termination_by (fuel, 2, sockets.length)

/-- The inner `Promise.all` over one socket's connections (lines 157-162):
resolve the downstream node, then recurse forward from it. -/
def forwardConns (fuel : Nat) (conns : List OutConn) (s : EngineSt) :
    Except Err Unit × EngineSt :=
  match conns with
  | [] => (.ok (), s)
  | c :: rest =>
    match processNode ins w fuel (lookupId s.data c.node) s with
    | (.error e, s) => (.error e, s)
    | (.ok _, s) =>
      match forwardProcess fuel (lookupId s.data c.node) s with
      | (.error e, s) => (.error e, s)
      | (.ok _, s) => forwardConns fuel rest s
termination_by (fuel, 1, conns.length)

end

/-- `processStartNode`'s result: `blocked` marks the `await
this.throwError(...)` of line 196 suspending forever (see `AbortK`). -/
inductive StartRes where
  | done
  | blocked
  deriving DecidableEq, Repr

/-- `processStartNode` (lines 191-201): a falsy id skips the whole start
phase; an id naming no node reaches `return await this.throwError('Node
with such id not found')`, whose `await this.abort()` (line 30) parks the
run: with the state PROCESSED the abort promise resolves only from
`processDone`, which the suspended chain can never reach, so the run's
promise never settles and lines 31-33 (the `'error'` event) never run. -/
def processStartNode (fuel : Nat) (startId : Option Nat) (s : EngineSt) :
    Except Err StartRes × EngineSt :=
  if truthy startId then
    match startId with
    | none => (.ok .done, s)
    | some i =>
      match lookupId s.data i with
      | none =>
        match abortWith .blockedRun s with
        | (true, s) =>
          -- abort() resolved immediately (state AVAILABLE): throwError
          -- continues synchronously; unreachable in an admitted run,
          -- modelled for totality.
          (.ok .done, (processDone (pushEv (.error notFoundMsg none) s)).2)
        | (false, s) => (.ok .blocked, s)
      | some a =>
        match processNode ins w fuel (some a) s with
        | (.error e, s) => (.error e, s)
        | (.ok _, s) =>
          match forwardProcess ins outs w fuel (some a) s with
          | (.error e, s) => (.error e, s)
          | (.ok _, s) => (.ok .done, s)
  else (.ok .done, s)

/-- The loop of `processUnreachable` (lines 203-211) over a snapshot of the
node map's keys: any node whose `outputData` is still `undefined` is
resolved and forward-propagated. -/
def sweepNodes (fuel : Nat) (ids : List Nat) (s : EngineSt) :
    Except Err Unit × EngineSt :=
  match ids with
  | [] => (.ok (), s)
  | i :: rest =>
    match lookupId s.data i with
    | none => sweepNodes fuel rest s
    | some a =>
      if (s.store.get a).outputData = none then
        match processNode ins w fuel (some a) s with
        | (.error e, s) => (.error e, s)
        | (.ok _, s) =>
          match forwardProcess ins outs w fuel (some a) s with
          | (.error e, s) => (.error e, s)
          | (.ok _, s) => sweepNodes fuel rest s
      else sweepNodes fuel rest s

/-- `processUnreachable` (lines 203-211).  The interpreter's node map is
fixed during the walk, so iterating a snapshot of its keys matches the
source's `for (let i in this.data.nodes)`. -/
def processUnreachable (fuel : Nat) (s : EngineSt) : Except Err Unit × EngineSt :=
  sweepNodes ins outs w fuel (s.data.map Prod.fst) s

/-- `process` (lines 213-224).  The first component is the settled value of
the returned promise: `none` when the promise never settles (see
`processStartNode`), `some o` when it settles with `o`; `Except.error`
models the promise rejecting (a raised `TypeError`, see `forwardProcess`).
Line 215 (`if (!this.validate(data)) return;`) tests the promise object
returned by the un-awaited `validate` — always truthy — so the branch is
never taken and only `validate`'s synchronous state effects remain. -/
def process (fuel : Nat) (tmpl : List (Nat × Nat)) (startId : Option Nat)
    (s : EngineSt) : Except Err (Option Outcome) × EngineSt :=
  match processStart s with
  | (false, s) => (.ok (some .undef), s)
  | (true, s) =>
    let s := validateSync outs validator tmpl s
    let (newMap, st') := copyGraph tmpl s.store
    let s := { s with data := newMap, store := st' }
    match processStartNode ins outs w fuel startId s with
    | (.error e, s) => (.error e, s)
    | (.ok .blocked, s) => (.ok none, s)
    | (.ok .done, s) =>
      match processUnreachable ins outs w fuel s with
      | (.error e, s) => (.error e, s)
      | (.ok _, s) =>
        match processDone s with
        | (succ, s) => (.ok (some (if succ then .success else .aborted)), s)

end Engine

/-- Build the heap and node map for a caller's template graph: the `k`-th
node of the list gets address `k` (template objects), with the
execution-state fields absent as on freshly authored graph data. -/
def initObjs : Nat → List (Nat × TNode) → List (Nat × NodeObj)
  | _, [] => []
  | base, (_, t) :: rest =>
    (base, { name := t.name, inputsRef := t.ins, outputsRef := t.outs,
             outputData := none, busy := false, unlockPool := none }) ::
    initObjs (base + 1) rest

/-- The template heap. -/
def initStore (g : List (Nat × TNode)) : Store :=
  { objs := initObjs 0 g, next := g.length }

def tmplMapFrom : Nat → List (Nat × TNode) → List (Nat × Nat)
  | _, [] => []
  | base, (i, _) :: rest => (i, base) :: tmplMapFrom (base + 1) rest

/-- The template node map (node id → template address). -/
def tmplMap (g : List (Nat × TNode)) : List (Nat × Nat) :=
  tmplMapFrom 0 g

/-- A fresh engine instance holding the template heap: state AVAILABLE,
no-op `onAbort` (constructor lines 15-18), `this.data` null (modelled as
the empty map — `process` installs the per-run copy before any use). -/
def initEngine (g : List (Nat × TNode)) : EngineSt :=
  { st := .available, onAbort := .noop, events := [], warns := [],
    data := [], store := initStore g }

/-! ## Association-list and store lemmas -/

theorem mem_of_lookupId {m : List (Nat × Nat)} {i a : Nat}
    (h : lookupId m i = some a) : (i, a) ∈ m := by
  unfold lookupId at h
  cases hf : m.find? (fun p => p.1 == i) with
  | none => simp [hf] at h
  | some p =>
    have hp := List.find?_some hf
    have hm := List.mem_of_find?_eq_some hf
    simp [hf] at h
    rcases p with ⟨j, b⟩
    simp at hp
    subst hp
    subst h
    exact hm

theorem lookupId_of_mem {m : List (Nat × Nat)} {i a : Nat}
    (hnd : (m.map Prod.fst).Nodup) (h : (i, a) ∈ m) : lookupId m i = some a := by
  induction m with
  | nil => simp at h
  | cons p rest ih =>
    rcases p with ⟨j, b⟩
    simp only [List.map_cons, List.nodup_cons] at hnd
    rcases List.mem_cons.mp h with h | h
    · injection h with h1 h2
      subst h1; subst h2
      unfold lookupId
      rw [List.find?_cons_of_pos _ (by simp)]
      rfl
    · have hji : j ≠ i := by
        intro he
        exact hnd.1 (he ▸ List.mem_map_of_mem Prod.fst h)
      unfold lookupId
      rw [List.find?_cons_of_neg _ (by simp [hji])]
      exact ih hnd.2 h

theorem Store.get_upd_ne (st : Store) {a b : Nat} (f : NodeObj → NodeObj)
    (h : b ≠ a) : (st.upd a f).get b = st.get b := by
  rcases st with ⟨objs, nxt⟩
  unfold Store.upd Store.get
  simp only
  induction objs with
  | nil => rfl
  | cons p rest ih =>
    rcases p with ⟨k, o⟩
    by_cases hk : k = a
    · subst hk
      rw [List.map_cons, if_pos rfl]
      rw [List.find?_cons_of_neg _ (by simp [Ne.symm h]),
          List.find?_cons_of_neg _ (by simp [Ne.symm h])]
      exact ih
    · rw [List.map_cons, if_neg hk]
      by_cases hb : k = b
      · subst hb
        rw [List.find?_cons_of_pos _ (by simp), List.find?_cons_of_pos _ (by simp)]
      · rw [List.find?_cons_of_neg _ (by simp [hb]),
            List.find?_cons_of_neg _ (by simp [hb])]
        exact ih

theorem Store.get_upd_self (st : Store) {a : Nat} (f : NodeObj → NodeObj)
    (h : a ∈ st.objs.map Prod.fst) : (st.upd a f).get a = f (st.get a) := by
  rcases st with ⟨objs, nxt⟩
  unfold Store.upd Store.get
  simp only at h ⊢
  induction objs with
  | nil => simp at h
  | cons p rest ih =>
    rcases p with ⟨k, o⟩
    by_cases hk : k = a
    · subst hk
      rw [List.map_cons, if_pos rfl]
      rw [List.find?_cons_of_pos _ (by simp), List.find?_cons_of_pos _ (by simp)]
      rfl
    · rw [List.map_cons, if_neg hk]
      rw [List.find?_cons_of_neg _ (by simp [hk]),
          List.find?_cons_of_neg _ (by simp [hk])]
      rw [List.map_cons, List.mem_cons] at h
      rcases h with h | h
      · exact absurd h.symm hk
      · exact ih h

theorem Store.upd_keys (st : Store) (a : Nat) (f : NodeObj → NodeObj) :
    (st.upd a f).objs.map Prod.fst = st.objs.map Prod.fst := by
  rcases st with ⟨objs, nxt⟩
  unfold Store.upd
  simp only
  induction objs with
  | nil => rfl
  | cons p rest ih =>
    rcases p with ⟨k, o⟩
    by_cases hk : k = a
    · subst hk
      simp only [List.map_cons, if_pos rfl]
      rw [ih]
      simp
    · simp only [List.map_cons, if_neg hk]
      rw [ih]

theorem Store.upd_next (st : Store) (a : Nat) (f : NodeObj → NodeObj) :
    (st.upd a f).next = st.next := rfl

theorem copyNodes_fst (st : Store) (base : Nat) (tmpl : List (Nat × Nat)) :
    (copyNodes st base tmpl).1.map Prod.fst = tmpl.map Prod.fst := by
  induction tmpl generalizing base with
  | nil => rfl
  | cons p rest ih =>
    rcases p with ⟨i, a⟩
    simp only [copyNodes, List.map_cons]
    rw [ih]

theorem copyNodes_snd (st : Store) (base : Nat) (tmpl : List (Nat × Nat)) :
    (copyNodes st base tmpl).1.map Prod.snd = List.range' base tmpl.length := by
  induction tmpl generalizing base with
  | nil => rfl
  | cons p rest ih =>
    rcases p with ⟨i, a⟩
    simp only [copyNodes, List.map_cons, List.length_cons, List.range'_succ]
    rw [ih]

theorem copyNodes_objs_fst (st : Store) (base : Nat) (tmpl : List (Nat × Nat)) :
    (copyNodes st base tmpl).2.map Prod.fst = List.range' base tmpl.length := by
  induction tmpl generalizing base with
  | nil => rfl
  | cons p rest ih =>
    rcases p with ⟨i, a⟩
    simp only [copyNodes, List.map_cons, List.length_cons, List.range'_succ]
    rw [ih]

theorem copyNodes_find {st : Store} {base : Nat} {tmpl : List (Nat × Nat)}
    {i b : Nat} (h : (i, b) ∈ (copyNodes st base tmpl).1) :
    base ≤ b ∧ b < base + tmpl.length ∧
      ∃ a, (i, a) ∈ tmpl ∧
        (copyNodes st base tmpl).2.find? (fun p => p.1 == b) = some (b, st.get a) := by
  induction tmpl generalizing base with
  | nil => simp [copyNodes] at h
  | cons p rest ih =>
    rcases p with ⟨j, a0⟩
    simp only [copyNodes, List.mem_cons] at h
    rcases h with h | h
    · injection h with h1 h2
      subst h1; subst h2
      refine ⟨le_refl _, by simp, a0, List.mem_cons_self _ _, ?_⟩
      simp only [copyNodes]
      rw [List.find?_cons_of_pos _ (by simp)]
    · obtain ⟨hle, hlt, a, ha, hfind⟩ := ih h
      refine ⟨by omega, by simp only [List.length_cons]; omega, a,
        List.mem_cons_of_mem _ ha, ?_⟩
      simp only [copyNodes]
      rw [List.find?_cons_of_neg _ (by simp; omega)]
      exact hfind

/-- All heap keys are below the allocation counter. -/
def StoreLt (st : Store) : Prop := ∀ k ∈ st.objs.map Prod.fst, k < st.next

theorem copyGraph_get_old {st : Store} (tmpl : List (Nat × Nat))
    (hlt : StoreLt st) {a : Nat} (ha : a < st.next) :
    ((copyGraph tmpl st).2).get a = st.get a := by
  unfold copyGraph Store.get
  simp only [List.find?_append]
  cases hf : st.objs.find? (fun p => p.1 == a) with
  | some p => simp [Option.or]
  | none =>
    have hnone : (copyNodes st st.next tmpl).2.find? (fun p => p.1 == a) = none := by
      rw [List.find?_eq_none]
      intro x hx
      have hk : x.1 ∈ (copyNodes st st.next tmpl).2.map Prod.fst :=
        List.mem_map_of_mem Prod.fst hx
      rw [copyNodes_objs_fst] at hk
      have := (List.mem_range'_1.mp hk).1
      simp only [beq_iff_eq]
      omega
    simp [Option.or, hnone]

theorem copyGraph_get_new {st : Store} {tmpl : List (Nat × Nat)}
    (hlt : StoreLt st) {i b : Nat} (h : (i, b) ∈ (copyGraph tmpl st).1) :
    st.next ≤ b ∧ b < st.next + tmpl.length ∧
      ∃ a, (i, a) ∈ tmpl ∧ ((copyGraph tmpl st).2).get b = st.get a := by
  unfold copyGraph at h ⊢
  obtain ⟨hle, hblt, a, ha, hfind⟩ := copyNodes_find h
  refine ⟨hle, hblt, a, ha, ?_⟩
  unfold Store.get
  simp only [List.find?_append]
  have hnone : st.objs.find? (fun p => p.1 == b) = none := by
    rw [List.find?_eq_none]
    intro x hx
    have := hlt x.1 (List.mem_map_of_mem Prod.fst hx)
    simp only [beq_iff_eq]
    omega
  simp only [Option.or, hnone, hfind, Option.map_some, Option.getD_some]
  rfl

theorem copyGraph_fst (tmpl : List (Nat × Nat)) (st : Store) :
    (copyGraph tmpl st).1.map Prod.fst = tmpl.map Prod.fst := by
  unfold copyGraph
  exact copyNodes_fst st st.next tmpl

theorem copyGraph_snd (tmpl : List (Nat × Nat)) (st : Store) :
    (copyGraph tmpl st).1.map Prod.snd = List.range' st.next tmpl.length := by
  unfold copyGraph
  exact copyNodes_snd st st.next tmpl

theorem copyGraph_next (tmpl : List (Nat × Nat)) (st : Store) :
    (copyGraph tmpl st).2.next = st.next + tmpl.length := rfl

theorem copyGraph_objs_fst (tmpl : List (Nat × Nat)) (st : Store) :
    (copyGraph tmpl st).2.objs.map Prod.fst
      = st.objs.map Prod.fst ++ List.range' st.next tmpl.length := by
  unfold copyGraph
  simp only [List.map_append]
  rw [copyNodes_objs_fst]

theorem copyGraph_storeLt (tmpl : List (Nat × Nat)) {st : Store}
    (hlt : StoreLt st) : StoreLt (copyGraph tmpl st).2 := by
  intro k hk
  rw [copyGraph_objs_fst, List.mem_append] at hk
  rw [copyGraph_next]
  rcases hk with hk | hk
  · have := hlt k hk
    omega
  · have := List.mem_range'_1.mp hk
    omega

/-! ## Frame lemmas: the run writes only to the per-run copies

`Frames s s'` says that in going from `s` to `s'` the engine did not touch
the node map, did not allocate, did not change any heap key, wrote only to
objects referenced from the current node map `s.data` (the per-run
copies), and even there never changed the `name`/`inputsRef`/`outputsRef`
fields (it writes only the execution-state fields). -/
def Frames (s s' : EngineSt) : Prop :=
  s'.data = s.data ∧
  s'.store.next = s.store.next ∧
  s'.store.objs.map Prod.fst = s.store.objs.map Prod.fst ∧
  (∀ a, a ∉ s.data.map Prod.snd → s'.store.get a = s.store.get a) ∧
  (∀ a, (s'.store.get a).name = (s.store.get a).name ∧
    (s'.store.get a).inputsRef = (s.store.get a).inputsRef ∧
    (s'.store.get a).outputsRef = (s.store.get a).outputsRef)

theorem Frames_refl (s : EngineSt) : Frames s s :=
  ⟨rfl, rfl, rfl, fun _ _ => rfl, fun _ => ⟨rfl, rfl, rfl⟩⟩

theorem Frames_trans {s1 s2 s3 : EngineSt} (h12 : Frames s1 s2)
    (h23 : Frames s2 s3) : Frames s1 s3 := by
  obtain ⟨hd12, hn12, hk12, ho12, hf12⟩ := h12
  obtain ⟨hd23, hn23, hk23, ho23, hf23⟩ := h23
  refine ⟨hd23.trans hd12, hn23.trans hn12, hk23.trans hk12, ?_, ?_⟩
  · intro a ha
    rw [ho23 a (by rw [hd12]; exact ha), ho12 a ha]
  · intro a
    obtain ⟨h1, h2, h3⟩ := hf23 a
    obtain ⟨h4, h5, h6⟩ := hf12 a
    exact ⟨h1.trans h4, h2.trans h5, h3.trans h6⟩

theorem Frames_of_store_eq {s s' : EngineSt} (hst : s'.store = s.store)
    (hd : s'.data = s.data) : Frames s s' := by
  refine ⟨hd, by rw [hst], by rw [hst], fun a _ => by rw [hst], fun a => ?_⟩
  rw [hst]
  exact ⟨rfl, rfl, rfl⟩

theorem fireCont2_store (c : AbortK) (s : EngineSt) :
    (fireCont2 c s).store = s.store ∧ (fireCont2 c s).data = s.data := by
  cases c <;> simp [fireCont2, pushEv]

theorem fireCont_store (c : AbortK) (s : EngineSt) :
    (fireCont c s).store = s.store ∧ (fireCont c s).data = s.data := by
  cases c with
  | noop => exact ⟨rfl, rfl⟩
  | abandoned => exact ⟨rfl, rfl⟩
  | blockedRun => exact ⟨rfl, rfl⟩
  | throwErrorK m d =>
    by_cases h : s.st = EState.abort
    · simp only [fireCont, pushEv]
      rw [if_neg (by simp [h])]
      constructor
      · rw [(fireCont2_store _ _).1]
      · rw [(fireCont2_store _ _).2]
    · simp only [fireCont, pushEv]
      rw [if_pos (by simp [h])]
      exact ⟨rfl, rfl⟩

theorem processDone_store (s : EngineSt) :
    (processDone s).2.store = s.store ∧ (processDone s).2.data = s.data := by
  by_cases h : s.st = EState.abort
  · simp only [processDone]
    rw [if_neg (by simp [h])]
    constructor
    · rw [(fireCont_store _ _).1]
    · rw [(fireCont_store _ _).2]
  · simp only [processDone]
    rw [if_pos (by simp [h])]
    exact ⟨rfl, rfl⟩

theorem abortWith_store (k : AbortK) (s : EngineSt) :
    (abortWith k s).2.store = s.store ∧ (abortWith k s).2.data = s.data := by
  cases hs : s.st with
  | processed => simp [abortWith, hs]
  | available => simp [abortWith, hs]
  | abort =>
    simp only [abortWith, hs]
    constructor
    · rw [(fireCont_store _ _).1]
    · rw [(fireCont_store _ _).2]

theorem abortDrop_store (s : EngineSt) :
    (abortDrop s).store = s.store ∧ (abortDrop s).data = s.data :=
  abortWith_store .abandoned s

theorem Store.upd_absent (st : Store) {a : Nat} (f : NodeObj → NodeObj)
    (h : a ∉ st.objs.map Prod.fst) : st.upd a f = st := by
  rcases st with ⟨objs, nxt⟩
  unfold Store.upd
  simp only [Store.mk.injEq, and_true]
  induction objs with
  | nil => rfl
  | cons p rest ih =>
    simp only [List.map_cons, List.mem_cons] at h
    push_neg at h
    rw [List.map_cons, if_neg (fun he => h.1 he.symm), ih h.2]

theorem Frames_updNode {s : EngineSt} {a : Nat} {f : NodeObj → NodeObj}
    (ha : a ∈ s.data.map Prod.snd)
    (hf : ∀ o, (f o).name = o.name ∧ (f o).inputsRef = o.inputsRef ∧
      (f o).outputsRef = o.outputsRef) :
    Frames s (s.updNode a f) := by
  refine ⟨rfl, Store.upd_next _ _ _, Store.upd_keys _ _ _, ?_, ?_⟩
  · intro b hb
    have hba : b ≠ a := fun he => hb (he ▸ ha)
    exact Store.get_upd_ne _ _ hba
  · intro b
    simp only [EngineSt.updNode]
    by_cases hba : b = a
    · subst hba
      by_cases hmem : b ∈ s.store.objs.map Prod.fst
      · rw [Store.get_upd_self _ _ hmem]
        exact hf _
      · rw [Store.upd_absent _ _ hmem]
        exact ⟨rfl, rfl, rfl⟩
    · rw [Store.get_upd_ne _ _ hba]
      exact ⟨rfl, rfl, rfl⟩

theorem mem_snd_of_lookupId {m : List (Nat × Nat)} {i a : Nat}
    (h : lookupId m i = some a) : a ∈ m.map Prod.snd :=
  List.mem_map_of_mem Prod.snd (mem_of_lookupId h)

theorem lockSeq_ok {a : Nat} {s s1 : EngineSt} (h : lockSeq a s = .ok s1) :
    s1 = s.updNode a (fun n =>
      { n with unlockPool := some (n.unlockPool.getD []), busy := true }) := by
  simp only [lockSeq] at h
  split at h
  · exact absurd h (by simp)
  · injection h with h
    exact h.symm

section FramesWalk

variable (ins : Nat → List (String × List InConn))
variable (outs : Nat → List (String × List OutConn))
variable (w : String → InputData → OutData × Option Nat)

theorem extractConns_frames (fuel : Nat)
    (IH : ∀ na s, (∀ a, na = some a → a ∈ s.data.map Prod.snd) →
      Frames s (processNode ins w fuel na s).2) :
    ∀ conns s, Frames s (extractConns ins w fuel conns s).2 := by
  intro conns
  induction conns with
  | nil =>
    intro s
    simp only [extractConns]
    exact Frames_refl s
  | cons c rest ih =>
    intro s
    have h1 := IH (lookupId s.data c.node) s (fun a ha => mem_snd_of_lookupId ha)
    simp only [extractConns]
    cases hp : processNode ins w fuel (lookupId s.data c.node) s with
    | mk r s1 =>
      rw [hp] at h1
      cases r with
      | error e => exact h1
      | ok outputs =>
        cases outputs with
        | none =>
          dsimp only
          have h2 : Frames s1 (abortDrop s1) :=
            Frames_of_store_eq (abortDrop_store s1).1 (abortDrop_store s1).2
          have h3 := ih (abortDrop s1)
          cases he : extractConns ins w fuel rest (abortDrop s1) with
          | mk r2 s2 =>
            rw [he] at h3
            cases r2 with
            | error e => exact Frames_trans h1 (Frames_trans h2 h3)
            | ok vs => exact Frames_trans h1 (Frames_trans h2 h3)
        | some od =>
          dsimp only
          have h3 := ih s1
          cases he : extractConns ins w fuel rest s1 with
          | mk r2 s2 =>
            rw [he] at h3
            cases r2 with
            | error e => exact Frames_trans h1 h3
            | ok vs => exact Frames_trans h1 h3

theorem extractInputs_frames (fuel : Nat)
    (IH : ∀ na s, (∀ a, na = some a → a ∈ s.data.map Prod.snd) →
      Frames s (processNode ins w fuel na s).2) :
    ∀ inputs s, Frames s (extractInputs ins w fuel inputs s).2 := by
  intro inputs
  induction inputs with
  | nil =>
    intro s
    simp only [extractInputs]
    exact Frames_refl s
  | cons kc rest ih =>
    intro s
    rcases kc with ⟨key, conns⟩
    simp only [extractInputs]
    have h1 := extractConns_frames ins w fuel IH conns s
    cases hc : extractConns ins w fuel conns s with
    | mk r s1 =>
      rw [hc] at h1
      cases r with
      | error e => exact h1
      | ok vals =>
        dsimp only
        have h2 := ih s1
        cases he : extractInputs ins w fuel rest s1 with
        | mk r2 s2 =>
          rw [he] at h2
          cases r2 with
          | error e => exact Frames_trans h1 h2
          | ok rd => exact Frames_trans h1 h2

theorem processNodeWorker_frames (fuel : Nat)
    (IH : ∀ na s, (∀ a, na = some a → a ∈ s.data.map Prod.snd) →
      Frames s (processNode ins w fuel na s).2) :
    ∀ a s, Frames s (processNodeWorker ins w fuel a s).2 := by
  intro a s
  simp only [processNodeWorker, extractInputData]
  have h1 := extractInputs_frames ins w fuel IH (ins ((s.store.get a).inputsRef)) s
  cases hx : extractInputs ins w fuel (ins ((s.store.get a).inputsRef)) s with
  | mk r s1 =>
    rw [hx] at h1
    cases r with
    | error e => exact h1
    | ok idata =>
      dsimp only
      cases hw : w ((s1.store.get a).name) idata with
      | mk out exc =>
        cases exc with
        | none => exact h1
        | some e =>
          refine Frames_trans h1 (Frames_of_store_eq ?_ ?_)
          · show (pushEv (.warn e) (abortDrop s1)).store = s1.store
            rw [show (pushEv (.warn e) (abortDrop s1)).store = (abortDrop s1).store from rfl,
              (abortDrop_store s1).1]
          · show (pushEv (.warn e) (abortDrop s1)).data = s1.data
            rw [show (pushEv (.warn e) (abortDrop s1)).data = (abortDrop s1).data from rfl,
              (abortDrop_store s1).2]

theorem processNode_frames :
    ∀ (fuel : Nat) (na : Option Nat) (s : EngineSt),
      (∀ a, na = some a → a ∈ s.data.map Prod.snd) →
      Frames s (processNode ins w fuel na s).2 := by
  intro fuel
  induction fuel with
  | zero =>
    intro na s _
    simp only [processNode]
    exact Frames_refl s
  | succ fuel IH =>
    intro na s hna
    rw [processNode.eq_def]
    dsimp only
    by_cases hab : s.st = EState.abort
    · rw [if_pos hab]
      exact Frames_refl s
    · rw [if_neg hab]
      cases na with
      | none => exact Frames_refl s
      | some a =>
        dsimp only
        have ha : a ∈ s.data.map Prod.snd := hna a rfl
        cases hl : lockSeq a s with
        | error e => exact Frames_refl s
        | ok s1 =>
          dsimp only
          have h1 : Frames s s1 := by
            rw [lockSeq_ok hl]
            exact Frames_updNode ha (fun o => ⟨rfl, rfl, rfl⟩)
          have hd1 : s1.data = s.data := h1.1
          cases ho : (s1.store.get a).outputData with
          | some od =>
            dsimp only
            refine Frames_trans h1 ?_
            have ha1 : a ∈ s1.data.map Prod.snd := by rw [hd1]; exact ha
            exact Frames_updNode ha1 (fun o => ⟨rfl, rfl, rfl⟩)
          | none =>
            dsimp only
            have h2 := processNodeWorker_frames ins w fuel IH a s1
            cases hw : processNodeWorker ins w fuel a s1 with
            | mk r s2 =>
              rw [hw] at h2
              cases r with
              | error e => exact Frames_trans h1 h2
              | ok out =>
                dsimp only
                have hd2 : s2.data = s.data := h2.1.trans hd1
                have ha2 : a ∈ s2.data.map Prod.snd := by rw [hd2]; exact ha
                refine Frames_trans h1 (Frames_trans h2 ?_)
                refine Frames_trans
                  (Frames_updNode (f := fun n => { n with outputData := some out })
                    ha2 (fun o => ⟨rfl, rfl, rfl⟩)) ?_
                exact Frames_updNode (f := fun n =>
                  { n with unlockPool := some [], busy := false })
                  ha2 (fun o => ⟨rfl, rfl, rfl⟩)

theorem forwardConns_frames (fuel : Nat)
    (IHf : ∀ na s, Frames s (forwardProcess ins outs w fuel na s).2) :
    ∀ conns s, Frames s (forwardConns ins outs w fuel conns s).2 := by
  intro conns
  induction conns with
  | nil =>
    intro s
    simp only [forwardConns]
    exact Frames_refl s
  | cons c rest ih =>
    intro s
    simp only [forwardConns]
    have h1 := processNode_frames ins w fuel (lookupId s.data c.node) s
      (fun a ha => mem_snd_of_lookupId ha)
    cases hp : processNode ins w fuel (lookupId s.data c.node) s with
    | mk r s1 =>
      rw [hp] at h1
      cases r with
      | error e => exact h1
      | ok _ =>
        dsimp only
        have h2 := IHf (lookupId s1.data c.node) s1
        cases hf : forwardProcess ins outs w fuel (lookupId s1.data c.node) s1 with
        | mk r2 s2 =>
          rw [hf] at h2
          cases r2 with
          | error e => exact Frames_trans h1 h2
          | ok _ =>
            dsimp only
            have h3 := ih s2
            cases he : forwardConns ins outs w fuel rest s2 with
            | mk r3 s3 =>
              rw [he] at h3
              exact Frames_trans h1 (Frames_trans h2 h3)

theorem forwardOutputs_frames (fuel : Nat)
    (IHf : ∀ na s, Frames s (forwardProcess ins outs w fuel na s).2) :
    ∀ sockets s, Frames s (forwardOutputs ins outs w fuel sockets s).2 := by
  intro sockets
  induction sockets with
  | nil =>
    intro s
    simp only [forwardOutputs]
    exact Frames_refl s
  | cons kc rest ih =>
    intro s
    rcases kc with ⟨key, conns⟩
    simp only [forwardOutputs]
    have h1 := forwardConns_frames ins outs w fuel IHf conns s
    cases hc : forwardConns ins outs w fuel conns s with
    | mk r s1 =>
      rw [hc] at h1
      cases r with
      | error e => exact h1
      | ok _ =>
        dsimp only
        have h2 := ih s1
        exact Frames_trans h1 h2

theorem forwardProcess_frames :
    ∀ (fuel : Nat) (na : Option Nat) (s : EngineSt),
      Frames s (forwardProcess ins outs w fuel na s).2 := by
  intro fuel
  induction fuel with
  | zero =>
    intro na s
    simp only [forwardProcess]
    exact Frames_refl s
  | succ fuel IHf =>
    intro na s
    rw [forwardProcess.eq_def]
    dsimp only
    by_cases hab : s.st = EState.abort
    · rw [if_pos hab]
      exact Frames_refl s
    · rw [if_neg hab]
      cases na with
      | none => exact Frames_refl s
      | some a =>
        dsimp only
        have h1 := forwardOutputs_frames ins outs w fuel IHf
          (outs ((s.store.get a).outputsRef)) s
        cases hc : forwardOutputs ins outs w fuel (outs ((s.store.get a).outputsRef)) s with
        | mk r s1 =>
          rw [hc] at h1
          cases r with
          | error e => exact h1
          | ok _ => exact h1

theorem processStartNode_frames (fuel : Nat) (startId : Option Nat)
    (s : EngineSt) : Frames s (processStartNode ins outs w fuel startId s).2 := by
  simp only [processStartNode]
  by_cases ht : truthy startId = true
  · rw [if_pos ht]
    cases startId with
    | none => exact Frames_refl s
    | some i =>
      dsimp only
      cases hl : lookupId s.data i with
      | none =>
        dsimp only
        cases hab : abortWith .blockedRun s with
        | mk resolved s1 =>
          have hst := abortWith_store AbortK.blockedRun s
          rw [hab] at hst
          cases resolved with
          | true =>
            dsimp only
            refine Frames_of_store_eq ?_ ?_
            · rw [(processDone_store _).1]
              show (pushEv (.error notFoundMsg none) s1).store = s.store
              rw [show (pushEv (.error notFoundMsg none) s1).store = s1.store from rfl]
              exact hst.1
            · rw [(processDone_store _).2]
              show (pushEv (.error notFoundMsg none) s1).data = s.data
              rw [show (pushEv (.error notFoundMsg none) s1).data = s1.data from rfl]
              exact hst.2
          | false =>
            dsimp only
            exact Frames_of_store_eq hst.1 hst.2
      | some a =>
        dsimp only
        have h1 := processNode_frames ins w fuel (some a) s
          (fun b hb => by injection hb with hb; exact hb ▸ mem_snd_of_lookupId hl)
        cases hp : processNode ins w fuel (some a) s with
        | mk r s1 =>
          rw [hp] at h1
          cases r with
          | error e => exact h1
          | ok _ =>
            dsimp only
            have h2 := forwardProcess_frames ins outs w fuel (some a) s1
            cases hf : forwardProcess ins outs w fuel (some a) s1 with
            | mk r2 s2 =>
              rw [hf] at h2
              cases r2 with
              | error e => exact Frames_trans h1 h2
              | ok _ => exact Frames_trans h1 h2
  · rw [if_neg ht]
    exact Frames_refl s

theorem sweepNodes_frames (fuel : Nat) :
    ∀ (ids : List Nat) (s : EngineSt),
      Frames s (sweepNodes ins outs w fuel ids s).2 := by
  intro ids
  induction ids with
  | nil =>
    intro s
    simp only [sweepNodes]
    exact Frames_refl s
  | cons i rest ih =>
    intro s
    simp only [sweepNodes]
    cases hl : lookupId s.data i with
    | none => exact ih s
    | some a =>
      dsimp only
      by_cases ho : (s.store.get a).outputData = none
      · rw [if_pos ho]
        have h1 := processNode_frames ins w fuel (some a) s
          (fun b hb => by injection hb with hb; exact hb ▸ mem_snd_of_lookupId hl)
        cases hp : processNode ins w fuel (some a) s with
        | mk r s1 =>
          rw [hp] at h1
          cases r with
          | error e => exact h1
          | ok _ =>
            dsimp only
            have h2 := forwardProcess_frames ins outs w fuel (some a) s1
            cases hf : forwardProcess ins outs w fuel (some a) s1 with
            | mk r2 s2 =>
              rw [hf] at h2
              cases r2 with
              | error e => exact Frames_trans h1 h2
              | ok _ =>
                dsimp only
                have h3 := ih s2
                exact Frames_trans h1 (Frames_trans h2 h3)
      · rw [if_neg ho]
        exact ih s

theorem processUnreachable_frames (fuel : Nat) (s : EngineSt) :
    Frames s (processUnreachable ins outs w fuel s).2 :=
  sweepNodes_frames ins outs w fuel (s.data.map Prod.fst) s

end FramesWalk

theorem validateSync_store (outs : Nat → List (String × List OutConn))
    (validator : List (Nat × Nat) → Bool × String) (tmpl : List (Nat × Nat))
    (s : EngineSt) : (validateSync outs validator tmpl s).store = s.store ∧
      (validateSync outs validator tmpl s).data = s.data := by
  unfold validateSync
  by_cases hc : (validator tmpl).1 = false
  · rw [if_pos hc]
    exact abortWith_store _ _
  · rw [if_neg hc]
    cases detect outs s.store tmpl with
    | some n => exact abortWith_store _ _
    | none => exact ⟨rfl, rfl⟩

theorem initObjs_fst (base : Nat) (g : List (Nat × TNode)) :
    (initObjs base g).map Prod.fst = List.range' base g.length := by
  induction g generalizing base with
  | nil => rfl
  | cons p rest ih =>
    rcases p with ⟨i, t⟩
    simp only [initObjs, List.map_cons, List.length_cons, List.range'_succ]
    rw [ih]

theorem initStore_storeLt (g : List (Nat × TNode)) : StoreLt (initStore g) := by
  intro k hk
  unfold initStore at hk ⊢
  simp only at hk ⊢
  rw [initObjs_fst] at hk
  have := List.mem_range'_1.mp hk
  omega

theorem tmplMapFrom_snd (base : Nat) (g : List (Nat × TNode)) :
    (tmplMapFrom base g).map Prod.snd = List.range' base g.length := by
  induction g generalizing base with
  | nil => rfl
  | cons p rest ih =>
    rcases p with ⟨i, t⟩
    simp only [tmplMapFrom, List.map_cons, List.length_cons, List.range'_succ]
    rw [ih]

theorem tmplMap_snd_lt {g : List (Nat × TNode)} {i a : Nat}
    (h : (i, a) ∈ tmplMap g) : a < g.length := by
  have : a ∈ (tmplMapFrom 0 g).map Prod.snd := List.mem_map_of_mem Prod.snd h
  rw [tmplMapFrom_snd] at this
  have := List.mem_range'_1.mp this
  omega

/-- The whole of `process` starting from an AVAILABLE engine, viewed from
the moment the per-run copy is installed: everything after the copy
respects the frame. -/
theorem process_frames (ins : Nat → List (String × List InConn))
    (outs : Nat → List (String × List OutConn))
    (w : String → InputData → OutData × Option Nat)
    (validator : List (Nat × Nat) → Bool × String)
    (fuel : Nat) (tmpl : List (Nat × Nat)) (startId : Option Nat)
    (s0 : EngineSt) (h : s0.st = .available) :
    Frames
      { validateSync outs validator tmpl { s0 with st := .processed } with
        data := (copyGraph tmpl s0.store).1,
        store := (copyGraph tmpl s0.store).2 }
      (process ins outs w validator fuel tmpl startId s0).2 := by
  have hvs := validateSync_store outs validator tmpl { s0 with st := .processed }
  unfold process
  rw [show processStart s0 = (true, { s0 with st := .processed }) by
    simp [processStart, h]]
  dsimp only
  rw [hvs.1]
  set s3 : EngineSt :=
    { validateSync outs validator tmpl { s0 with st := .processed } with
      data := (copyGraph tmpl s0.store).1,
      store := (copyGraph tmpl s0.store).2 } with hs3
  have h1 := processStartNode_frames ins outs w fuel startId s3
  cases hp : processStartNode ins outs w fuel startId s3 with
  | mk r s4 =>
    rw [hp] at h1
    cases r with
    | error e => exact h1
    | ok sr =>
      cases sr with
      | blocked => exact h1
      | done =>
        dsimp only
        have h2 := processUnreachable_frames ins outs w fuel s4
        cases hu : processUnreachable ins outs w fuel s4 with
        | mk r2 s5 =>
          rw [hu] at h2
          cases r2 with
          | error e => exact Frames_trans h1 h2
          | ok _ =>
            dsimp only
            cases hd : processDone s5 with
            | mk succ s6 =>
              have hds := processDone_store s5
              rw [hd] at hds
              exact Frames_trans h1 (Frames_trans h2
                (Frames_of_store_eq hds.1 hds.2))

theorem tmplMapFrom_length (base : Nat) (g : List (Nat × TNode)) :
    (tmplMapFrom base g).length = g.length := by
  induction g generalizing base with
  | nil => rfl
  | cons p rest ih =>
    rcases p with ⟨i, t⟩
    simp only [tmplMapFrom, List.length_cons]
    rw [ih]

theorem tmplMap_length (g : List (Nat × TNode)) :
    (tmplMap g).length = g.length := tmplMapFrom_length 0 g

/-- C6.  For every run from a fresh engine over a template graph `g`: the
execution-state fields are written only to the fresh shallow node copies
made by `copy()` — the caller's template node objects (addresses `< g.length`)
are unchanged after the run, whatever its outcome; the run's node map refers
only to fresh addresses (`g.length ≤ b`); and each copy still shares the
`inputs`/`outputs` container references with the template node object it
was copied from (only the nested socket/connection structures remain
shared). -/
theorem C6_frame_effect (ins : Nat → List (String × List InConn))
    (outs : Nat → List (String × List OutConn))
    (w : String → InputData → OutData × Option Nat)
    (validator : List (Nat × Nat) → Bool × String)
    (fuel : Nat) (g : List (Nat × TNode)) (startId : Option Nat) :
    (∀ a, a < g.length →
      (process ins outs w validator fuel (tmplMap g) startId
          (initEngine g)).2.store.get a = (initEngine g).store.get a) ∧
    (process ins outs w validator fuel (tmplMap g) startId
        (initEngine g)).2.data = (copyGraph (tmplMap g) (initStore g)).1 ∧
    (∀ i b, (i, b) ∈ (process ins outs w validator fuel (tmplMap g) startId
        (initEngine g)).2.data →
      g.length ≤ b ∧
      ∃ a, (i, a) ∈ tmplMap g ∧ a < g.length ∧
        ((process ins outs w validator fuel (tmplMap g) startId
            (initEngine g)).2.store.get b).inputsRef
          = ((initEngine g).store.get a).inputsRef ∧
        ((process ins outs w validator fuel (tmplMap g) startId
            (initEngine g)).2.store.get b).outputsRef
          = ((initEngine g).store.get a).outputsRef) := by
  have hF := process_frames ins outs w validator fuel (tmplMap g) startId
    (initEngine g) rfl
  obtain ⟨hdata, hnext, hkeys, hout, hfields⟩ := hF
  have hstore0 : (initEngine g).store = initStore g := rfl
  have hnx : (initStore g).next = g.length := rfl
  have hcopydata :
      ({ validateSync outs validator (tmplMap g)
            { initEngine g with st := .processed } with
          data := (copyGraph (tmplMap g) (initEngine g).store).1,
          store := (copyGraph (tmplMap g) (initEngine g).store).2 } : EngineSt).data
        = (copyGraph (tmplMap g) (initStore g)).1 := rfl
  refine ⟨?_, ?_, ?_⟩
  · intro a ha
    have hnotin : a ∉ ((copyGraph (tmplMap g) (initStore g)).1).map Prod.snd := by
      rw [copyGraph_snd, hnx, tmplMap_length]
      intro hmem
      have := List.mem_range'_1.mp hmem
      omega
    have h1 := hout a (by rw [hcopydata]; exact hnotin)
    rw [h1]
    show (copyGraph (tmplMap g) (initStore g)).2.get a = (initStore g).get a
    exact copyGraph_get_old _ (initStore_storeLt g) (by rw [hnx]; exact ha)
  · exact hdata.trans rfl
  · intro i b hb
    rw [hdata, hcopydata] at hb
    obtain ⟨hle, hblt, a, hmem, hget⟩ := copyGraph_get_new (initStore_storeLt g) hb
    rw [hnx] at hle
    refine ⟨hle, a, hmem, tmplMap_snd_lt hmem, ?_, ?_⟩
    · rw [(hfields b).2.1]
      show ((copyGraph (tmplMap g) (initStore g)).2.get b).inputsRef
        = ((initStore g).get a).inputsRef
      rw [hget]
    · rw [(hfields b).2.2]
      show ((copyGraph (tmplMap g) (initStore g)).2.get b).outputsRef
        = ((initStore g).get a).outputsRef
      rw [hget]

/-! ## The single-flight gate under arbitrary interleavings (claim C1)

The sequential interpreter above cannot exhibit concurrent requesters, so
the `lock`/`unlock`/`processNode` protocol (lines 80-96 and 136-148) is
modelled here as a small-step system over the microtask granularity of the
source: each step is one synchronous block of `processNode`.

A *task* is one `processNode(node)` call (a backward pull from
`extractInputData`, a forward push from `forwardProcess`, or the start
dispatch — `spawn` admits any number of them, at any time).  Its phases:

* `ready`  — about to run the `lock` executor (lines 81-89), which runs
  synchronously at the call;
* `waiting` — parked in `node.unlockPool` (line 84);
* `locked` — the continuation after `await this.lock(node)` is queued:
  either the executor called `res()` (line 86) or `unlock` fired the
  queued resolver (line 93); the next block runs lines 142-147;
* `done v` — returned the slot `v` (the promise object `node.outputData`;
  slots are named by the task id that installed them, since the installed
  slot is the `processWorker` promise created by that caller, line 143).

The gate state per node is exactly the fields of the source: the memoized
slot `outputData`, the `busy` flag, the `unlockPool` queue — plus a ghost
counter `invokes` incremented exactly when `processWorker` is invoked
(line 143), which is what claim C1 bounds. -/
namespace SingleFlight

structure Gate where
  slot : Option Nat := none
  busy : Bool := false
  pool : List Nat := []
  invokes : Nat := 0
  deriving DecidableEq, Repr

inductive Phase where
  | ready
  | waiting
  | locked
  | done (v : Nat)
  deriving DecidableEq, Repr

structure Task where
  tid : Nat
  node : Nat
  ph : Phase
  deriving DecidableEq, Repr

structure SFSt where
  gates : Nat → Gate
  tasks : List Task

/-- Write one node's gate. -/
def updG (gs : Nat → Gate) (n : Nat) (g : Gate) : Nat → Gate :=
  fun m => if m = n then g else gs m

/-- Set the phase of the task with identifier `tid`. -/
def setPh (ts : List Task) (tid : Nat) (p : Phase) : List Task :=
  ts.map (fun t => if t.tid = tid then { t with ph := p } else t)

/-- `unlock`'s `node.unlockPool.forEach(a => a())` (line 93): every resolver
in the pool fires, queueing the suspended caller's continuation. -/
def wake (ts : List Task) (pool : List Nat) : List Task :=
  ts.map (fun t => if t.tid ∈ pool ∧ t.ph = .waiting then { t with ph := .locked } else t)

/-- One microtask-granularity step of the protocol.

* `spawn`: a new `processNode` call arrives for node `n` (any requester,
  any time — fresh task id).
* `lockWait`: the `lock` executor (lines 82-88) observes `busy &&
  !outputData`: the resolver is queued and `busy` is (re)set.
* `lockPass`: the executor observes the negation: `res()` is called, the
  continuation is queued, `busy` is set (line 88).
* `install`: the continuation (lines 142-146) observes no slot: it invokes
  `processWorker` and assigns the slot synchronously (line 143), then
  `unlock` (lines 92-95) wakes the whole pool, clears it and clears
  `busy`; the task returns the installed slot.
* `hit`: the continuation observes a slot already installed: no
  invocation; `unlock` runs the same way and the task returns that
  slot. -/
inductive Step : SFSt → SFSt → Prop where
  | spawn (s : SFSt) (tid n : Nat) (hfresh : ∀ t ∈ s.tasks, t.tid ≠ tid) :
      Step s { s with tasks := s.tasks ++ [⟨tid, n, .ready⟩] }
  | lockWait (s : SFSt) (tid n : Nat)
      (hmem : (⟨tid, n, .ready⟩ : Task) ∈ s.tasks)
      (hbusy : (s.gates n).busy = true) (hslot : (s.gates n).slot = none) :
      Step s { gates := updG s.gates n
                 { s.gates n with pool := (s.gates n).pool ++ [tid], busy := true },
               tasks := setPh s.tasks tid .waiting }
  | lockPass (s : SFSt) (tid n : Nat)
      (hmem : (⟨tid, n, .ready⟩ : Task) ∈ s.tasks)
      (hbusy : ¬((s.gates n).busy = true ∧ (s.gates n).slot = none)) :
      Step s { gates := updG s.gates n { s.gates n with busy := true },
               tasks := setPh s.tasks tid .locked }
  | install (s : SFSt) (tid n : Nat)
      (hmem : (⟨tid, n, .locked⟩ : Task) ∈ s.tasks)
      (hslot : (s.gates n).slot = none) :
      Step s { gates := updG s.gates n
                 { slot := some tid, busy := false, pool := [],
                   invokes := (s.gates n).invokes + 1 },
               tasks := setPh (wake s.tasks (s.gates n).pool) tid (.done tid) }
  | hit (s : SFSt) (tid n v : Nat)
      (hmem : (⟨tid, n, .locked⟩ : Task) ∈ s.tasks)
      (hslot : (s.gates n).slot = some v) :
      Step s { gates := updG s.gates n { s.gates n with busy := false, pool := [] },
               tasks := setPh (wake s.tasks (s.gates n).pool) tid (.done v) }

/-- A run starts with no tasks and every gate in its initial state (no
slot, not busy, empty pool — the per-run copies have these fields
absent/fresh). -/
def init : SFSt := { gates := fun _ => {}, tasks := [] }

def Reach (s : SFSt) : Prop := Relation.ReflTransGen Step init s

/-- The protocol invariant: task ids are unique; the worker-invocation
count of a node is 1 if its slot is installed and 0 before; every finished
task returned exactly the installed slot of its node. -/
def Inv (s : SFSt) : Prop :=
  (s.tasks.map Task.tid).Nodup ∧
  (∀ n, (s.gates n).invokes = (if (s.gates n).slot.isSome then 1 else 0)) ∧
  (∀ t ∈ s.tasks, ∀ v, t.ph = .done v → (s.gates t.node).slot = some v)

theorem tids_setPh (ts : List Task) (tid : Nat) (p : Phase) :
    (setPh ts tid p).map Task.tid = ts.map Task.tid := by
  unfold setPh
  rw [List.map_map]
  apply List.map_congr_left
  intro t _
  by_cases h : t.tid = tid <;> simp [h]

theorem tids_wake (ts : List Task) (pool : List Nat) :
    (wake ts pool).map Task.tid = ts.map Task.tid := by
  unfold wake
  rw [List.map_map]
  apply List.map_congr_left
  intro t _
  by_cases h : t.tid ∈ pool ∧ t.ph = .waiting <;> simp [h]

theorem mem_setPh {ts : List Task} {tid : Nat} {p : Phase} {t' : Task}
    (h : t' ∈ setPh ts tid p) :
    ∃ t ∈ ts, t' = (if t.tid = tid then { t with ph := p } else t) := by
  obtain ⟨t, ht, he⟩ := List.mem_map.mp h
  exact ⟨t, ht, he.symm⟩

theorem mem_wake {ts : List Task} {pool : List Nat} {t' : Task}
    (h : t' ∈ wake ts pool) :
    ∃ t ∈ ts, t' = (if t.tid ∈ pool ∧ t.ph = .waiting then { t with ph := .locked } else t) := by
  obtain ⟨t, ht, he⟩ := List.mem_map.mp h
  exact ⟨t, ht, he.symm⟩

theorem Inv_init : Inv init := by
  refine ⟨by simp [init], fun n => by simp [init, Gate.slot], fun t ht => by simp [init] at ht⟩

theorem Inv_step {s s' : SFSt} (hinv : Inv s) (hstep : Step s s') : Inv s' := by
  obtain ⟨huniq, hcnt, hdone⟩ := hinv
  cases hstep with
  | spawn tid n hfresh =>
    refine ⟨?_, hcnt, ?_⟩
    · simp only [List.map_append, List.map_cons, List.map_nil]
      rw [List.nodup_append]
      refine ⟨huniq, List.nodup_singleton tid, ?_⟩
      intro x hx hxy
      simp only [List.mem_singleton] at hxy
      subst hxy
      obtain ⟨t, ht, hteq⟩ := List.mem_map.mp hx
      exact hfresh t ht hteq
    · intro t ht v hv
      rcases List.mem_append.mp ht with ht | ht
      · exact hdone t ht v hv
      · simp only [List.mem_singleton] at ht
        subst ht
        simp at hv
  | lockWait tid n hmem hbusy hslot =>
    refine ⟨by rw [tids_setPh]; exact huniq, ?_, ?_⟩
    · intro m
      dsimp only [updG]
      by_cases hmn : m = n
      · rw [if_pos hmn]
        exact hcnt n
      · rw [if_neg hmn]
        exact hcnt m
    · intro t' ht' v hv
      obtain ⟨t, ht, hteq⟩ := mem_setPh ht'
      dsimp only [updG]
      by_cases htid : t.tid = tid
      · rw [if_pos htid] at hteq
        subst hteq
        simp at hv
      · rw [if_neg htid] at hteq
        subst hteq
        have hold := hdone t' ht v hv
        by_cases hmn : t'.node = n
        · rw [hmn] at hold
          rw [hold] at hslot
          simp at hslot
        · rw [if_neg hmn]
          exact hold
  | lockPass tid n hmem hbusy =>
    refine ⟨by rw [tids_setPh]; exact huniq, ?_, ?_⟩
    · intro m
      dsimp only [updG]
      by_cases hmn : m = n
      · rw [if_pos hmn]
        exact hcnt n
      · rw [if_neg hmn]
        exact hcnt m
    · intro t' ht' v hv
      obtain ⟨t, ht, hteq⟩ := mem_setPh ht'
      dsimp only [updG]
      by_cases htid : t.tid = tid
      · rw [if_pos htid] at hteq
        subst hteq
        simp at hv
      · rw [if_neg htid] at hteq
        subst hteq
        have hold := hdone t' ht v hv
        by_cases hmn : t'.node = n
        · rw [hmn] at hold
          rw [if_pos hmn]
          exact hold
        · rw [if_neg hmn]
          exact hold
  | install tid n hmem hslot =>
    refine ⟨by rw [tids_setPh, tids_wake]; exact huniq, ?_, ?_⟩
    · intro m
      dsimp only [updG]
      by_cases hmn : m = n
      · rw [if_pos hmn]
        have h0 := hcnt n
        rw [hslot] at h0
        simp only [Option.isSome_none, Bool.false_eq_true, if_false] at h0
        simp [h0]
      · rw [if_neg hmn]
        exact hcnt m
    · intro t' ht' v hv
      obtain ⟨t1, ht1, hteq⟩ := mem_setPh ht'
      obtain ⟨t, ht, hteq1⟩ := mem_wake ht1
      dsimp only [updG]
      by_cases htid : t1.tid = tid
      · rw [if_pos htid] at hteq
        subst hteq
        simp only [Phase.done.injEq] at hv
        subst hv
        have ht1mem' : ∃ t2 ∈ s.tasks, t2.tid = t1.tid ∧ t2.node = t1.node := by
          by_cases hw : t.tid ∈ (s.gates n).pool ∧ t.ph = Phase.waiting
          · rw [if_pos hw] at hteq1
            subst hteq1
            exact ⟨t, ht, rfl, rfl⟩
          · rw [if_neg hw] at hteq1
            subst hteq1
            exact ⟨t1, ht, rfl, rfl⟩
        have htnode : t1.node = n := by
          obtain ⟨t2, ht2, he1, he2⟩ := ht1mem'
          have ht2eq : t2 = (⟨tid, n, .locked⟩ : Task) :=
            List.inj_on_of_nodup_map huniq ht2 hmem (by rw [he1, htid])
          rw [← he2, ht2eq]
        rw [htnode, if_pos rfl]
      · rw [if_neg htid] at hteq
        subst hteq
        by_cases hw : t.tid ∈ (s.gates n).pool ∧ t.ph = Phase.waiting
        · rw [if_pos hw] at hteq1
          subst hteq1
          simp at hv
        · rw [if_neg hw] at hteq1
          subst hteq1
          have hold := hdone t' ht v hv
          by_cases hmn : t'.node = n
          · rw [hmn] at hold
            rw [hold] at hslot
            simp at hslot
          · rw [if_neg hmn]
            exact hold
  | hit tid n v0 hmem hslot =>
    refine ⟨by rw [tids_setPh, tids_wake]; exact huniq, ?_, ?_⟩
    · intro m
      dsimp only [updG]
      by_cases hmn : m = n
      · rw [if_pos hmn]
        exact hcnt n
      · rw [if_neg hmn]
        exact hcnt m
    · intro t' ht' v hv
      obtain ⟨t1, ht1, hteq⟩ := mem_setPh ht'
      obtain ⟨t, ht, hteq1⟩ := mem_wake ht1
      dsimp only [updG]
      by_cases htid : t1.tid = tid
      · rw [if_pos htid] at hteq
        subst hteq
        simp only [Phase.done.injEq] at hv
        subst hv
        have ht1mem' : ∃ t2 ∈ s.tasks, t2.tid = t1.tid ∧ t2.node = t1.node := by
          by_cases hw : t.tid ∈ (s.gates n).pool ∧ t.ph = Phase.waiting
          · rw [if_pos hw] at hteq1
            subst hteq1
            exact ⟨t, ht, rfl, rfl⟩
          · rw [if_neg hw] at hteq1
            subst hteq1
            exact ⟨t1, ht, rfl, rfl⟩
        have htnode : t1.node = n := by
          obtain ⟨t2, ht2, he1, he2⟩ := ht1mem'
          have ht2eq : t2 = (⟨tid, n, .locked⟩ : Task) :=
            List.inj_on_of_nodup_map huniq ht2 hmem (by rw [he1, htid])
          rw [← he2, ht2eq]
        rw [htnode, if_pos rfl]
        exact hslot
      · rw [if_neg htid] at hteq
        subst hteq
        by_cases hw : t.tid ∈ (s.gates n).pool ∧ t.ph = Phase.waiting
        · rw [if_pos hw] at hteq1
          subst hteq1
          simp at hv
        · rw [if_neg hw] at hteq1
          subst hteq1
          have hold := hdone t' ht v hv
          by_cases hmn : t'.node = n
          · rw [hmn] at hold
            rw [if_pos hmn]
            exact hold
          · rw [if_neg hmn]
            exact hold

theorem Inv_reach {s : SFSt} (h : Reach s) : Inv s := by
  induction h with
  | refl => exact Inv_init
  | tail _ hstep ih => exact Inv_step ih hstep

end SingleFlight

/-! ## `Promise.all` order preservation (claim C7)

`extractInputData` resolves one socket's connections with
`Promise.all(conns.map(async (c) => ...))` (lines 104-113).  The callbacks
settle in an arbitrary order (each one suspends on its upstream node's
slot), but `Promise.all` places each callback's value at the callback's
own index.  The model: `order` lists the positions in the order in which
the callbacks settle; settling position `i` writes the connection's
resolved value `f conns[i]` into slot `i`.  Whatever the settlement order
(any permutation of the positions), the result array equals the values in
declared connection order, one entry per connection. -/
namespace PromiseAll

/-- Settle the callbacks in the given order.  A slot holds `none` until its
callback settles; callback `i` contributes `f c` for its own connection
`c = conns[i]`. -/
def runSched (conns : List InConn) (f : InConn → Option Nat) :
    List Nat → List (Option (Option Nat)) → List (Option (Option Nat))
  | [], acc => acc
  | i :: rest, acc =>
    runSched conns f rest
      (match conns[i]? with
       | some c => acc.set i (some (f c))
       | none => acc)

theorem runSched_length (conns : List InConn) (f : InConn → Option Nat) :
    ∀ (order : List Nat) (acc : List (Option (Option Nat))),
      (runSched conns f order acc).length = acc.length := by
  intro order
  induction order with
  | nil => intro acc; rfl
  | cons i rest ih =>
    intro acc
    simp only [runSched]
    cases hc : conns[i]? with
    | some c => rw [ih]; exact List.length_set acc i _
    | none => exact ih acc

theorem runSched_get (conns : List InConn) (f : InConn → Option Nat) :
    ∀ (order : List Nat) (acc : List (Option (Option Nat))),
      acc.length = conns.length → ∀ j : Nat,
      (runSched conns f order acc)[j]? =
        if j ∈ order ∧ j < conns.length then (conns[j]?).map (fun c => some (f c))
        else acc[j]? := by
  intro order
  induction order with
  | nil =>
    intro acc hlen j
    simp [runSched]
  | cons i rest ih =>
    intro acc hlen j
    simp only [runSched]
    cases hc : conns[i]? with
    | some c =>
      have hlen' : (acc.set i (some (f c))).length = conns.length := by
        rw [List.length_set]; exact hlen
      rw [ih _ hlen' j]
      by_cases hjr : j ∈ rest ∧ j < conns.length
      · rw [if_pos hjr, if_pos ⟨List.mem_cons_of_mem i hjr.1, hjr.2⟩]
      · rw [if_neg hjr]
        by_cases hji : j = i
        · subst hji
          have hjlt : j < conns.length := by
            by_contra hge
            rw [List.getElem?_eq_none (by omega)] at hc
            exact Option.noConfusion hc
          rw [if_pos ⟨List.mem_cons_self j rest, hjlt⟩]
          rw [List.getElem?_set_self']
          rw [hc]
          simp [hlen ▸ hjlt]
        · rw [List.getElem?_set_ne (Ne.symm hji)]
          have : ¬(j ∈ i :: rest ∧ j < conns.length) := by
            intro ⟨hmem, hlt⟩
            rcases List.mem_cons.mp hmem with h | h
            · exact hji h
            · exact hjr ⟨h, hlt⟩
          rw [if_neg this]
    | none =>
      rw [ih _ hlen j]
      have hge : conns.length ≤ i := by
        by_contra hlt
        rw [List.getElem?_eq_getElem (by omega)] at hc
        exact Option.noConfusion hc
      by_cases hjr : j ∈ rest ∧ j < conns.length
      · rw [if_pos hjr, if_pos ⟨List.mem_cons_of_mem i hjr.1, hjr.2⟩]
      · rw [if_neg hjr]
        have : ¬(j ∈ i :: rest ∧ j < conns.length) := by
          intro ⟨hmem, hlt⟩
          rcases List.mem_cons.mp hmem with h | h
          · subst h
            omega
          · exact hjr ⟨h, hlt⟩
        rw [if_neg this]

/-- Any settlement order that settles every callback exactly once produces
the declared-order value list. -/
theorem runSched_perm (conns : List InConn) (f : InConn → Option Nat)
    (order : List Nat) (hperm : order.Perm (List.range conns.length)) :
    runSched conns f order (List.replicate conns.length none)
      = conns.map (fun c => some (f c)) := by
  apply List.ext_getElem?
  intro j
  have hlen : (List.replicate conns.length (none : Option (Option Nat))).length
      = conns.length := List.length_replicate _ _
  rw [runSched_get conns f order _ hlen j]
  by_cases hj : j < conns.length
  · have hmem : j ∈ order := hperm.mem_iff.mpr (List.mem_range.mpr hj)
    rw [if_pos ⟨hmem, hj⟩]
    rw [List.getElem?_eq_getElem hj, List.getElem?_eq_getElem (by simpa using hj)]
    simp
  · have : ¬(j ∈ order ∧ j < conns.length) := fun h => hj h.2
    rw [if_neg this]
    rw [List.getElem?_eq_none (by simpa using hj),
      List.getElem?_eq_none (by simp only [List.length_map]; omega)]

end PromiseAll

/-! ## Interpreter-side counterpart of C7: one entry per connection -/

theorem extractConns_length
    (ins : Nat → List (String × List InConn))
    (w : String → InputData → OutData × Option Nat) :
    ∀ (fuel : Nat) (conns : List InConn) (s : EngineSt)
      (vals : List (Option Nat)) (s' : EngineSt),
      extractConns ins w fuel conns s = (.ok vals, s') →
      vals.length = conns.length := by
  intro fuel conns
  induction conns with
  | nil =>
    intro s vals s' h
    simp only [extractConns] at h
    injection h with h1 h2
    injection h1 with h1
    rw [← h1]
    rfl
  | cons c rest ih =>
    intro s vals s' h
    simp only [extractConns] at h
    cases hp : processNode ins w fuel (lookupId s.data c.node) s with
    | mk r s1 =>
      rw [hp] at h
      cases r with
      | error e => simp at h
      | ok outputs =>
        cases outputs with
        | none =>
          dsimp only at h
          cases he : extractConns ins w fuel rest (abortDrop s1) with
          | mk r2 s2 =>
            rw [he] at h
            cases r2 with
            | error e => simp at h
            | ok vs =>
              dsimp only at h
              injection h with h1 h2
              injection h1 with h1
              rw [← h1, List.length_cons, List.length_cons, ih _ _ _ he]
        | some od =>
          dsimp only at h
          cases he : extractConns ins w fuel rest s1 with
          | mk r2 s2 =>
            rw [he] at h
            cases r2 with
            | error e => simp at h
            | ok vs =>
              dsimp only at h
              injection h with h1 h2
              injection h1 with h1
              rw [← h1, List.length_cons, List.length_cons, ih _ _ _ he]

/-! ## Concrete fixtures for the claim evaluations -/

/-- A component worker that always succeeds, writing one output value. -/
def okW : String → InputData → OutData × Option Nat := fun _ _ => ([("val", 7)], none)

/-- A validator oracle that accepts every graph. -/
def acceptV : List (Nat × Nat) → Bool × String := fun _ => (true, "")

/-- A validator oracle that rejects every graph with a fixed message. -/
def rejectV : List (Nat × Nat) → Bool × String := fun _ => (false, "validation failed")

/-- Empty socket containers. -/
def emptyIns : Nat → List (String × List InConn) := fun _ => []

def emptyOuts : Nat → List (String × List OutConn) := fun _ => []

/-- Two isolated nodes (for the validation-failure run). -/
def gTwo : List (Nat × TNode) := [(1, ⟨"c", 0, 0⟩), (2, ⟨"c", 0, 0⟩)]

/-- One isolated node (for the missing-start-id run). -/
def gOne : List (Nat × TNode) := [(1, ⟨"c", 0, 0⟩)]

/-- One node whose output socket (container 100) has a connection to node
id 2, which does not exist in the graph. -/
def outsDangling : Nat → List (String × List OutConn) :=
  fun r => if r = 100 then [("out", [⟨2, "in"⟩])] else []

def gDangling : List (Nat × TNode) := [(1, ⟨"c", 0, 100⟩)]

/-- C2.  The claim says an admitted run's promise resolves to exactly one of
`"success"`/`"aborted"`/`"error"`, with `"error"` exactly on validation
failure, cycle, or missing start id, short-circuiting before the graph copy
is used.  The code disagrees: `process` tests the *promise* returned by the
un-awaited async `validate` (`if (!this.validate(data)) return;`, line 215),
which is always truthy, so the `"error"` short-circuit never happens.  On
this admitted run with a rejecting validator the promise resolves to
`"aborted"` — not `"error"` — the per-run copy is made and swept (the
`"error"` event fires only at `processDone`, after the outcome is already
determined), and no component executes. -/
theorem C2_validation_failure_resolves_aborted :
    (process emptyIns emptyOuts okW rejectV 10 (tmplMap gTwo) (some 1)
        (initEngine gTwo)).1 = .ok (some .aborted) ∧
    (process emptyIns emptyOuts okW rejectV 10 (tmplMap gTwo) (some 1)
        (initEngine gTwo)).2.events = [.error "validation failed" none] ∧
    (process emptyIns emptyOuts okW rejectV 10 (tmplMap gTwo) (some 1)
        (initEngine gTwo)).2.data = [(1, 2), (2, 3)] ∧
    ((process emptyIns emptyOuts okW rejectV 10 (tmplMap gTwo) (some 1)
        (initEngine gTwo)).2.store.get 2).outputData = none ∧
    ((process emptyIns emptyOuts okW rejectV 10 (tmplMap gTwo) (some 1)
        (initEngine gTwo)).2.store.get 3).outputData = none := by
  refine ⟨?_, ?_, ?_, ?_, ?_⟩ <;>
    simp [process, processStart, initEngine, initStore, initObjs, tmplMap,
      tmplMapFrom, validateSync, rejectV, abortWith, fireCont, fireCont2,
      copyGraph, copyNodes, processStartNode, truthy, lookupId, lookupKey,
      processNode, processNodeWorker, extractInputData, extractInputs,
      extractConns, forwardProcess, forwardOutputs, forwardConns, lockSeq,
      unlock, EngineSt.updNode, Store.upd, okW, abortDrop,
      processUnreachable, sweepNodes, processDone, pushEv, Store.get,
      emptyIns, emptyOuts, gTwo, dummyNode, List.find?]

/-- C3.  The claim says a run with a start id naming no node resolves with
`"error"`, emits the fixed node-not-found `"error"` event, and aborts.  The
code disagrees: `processStartNode` does `return await this.throwError(...)`
(line 196) and `throwError` does `await this.abort()` (line 30); with the
state PROCESSED, `abort` parks its resolver in `this.onAbort`, which only
`processDone` can fire — but `processDone` is unreachable while the whole
`process` chain is suspended on this very await.  The run's promise
therefore never settles (`none`), and no `"error"` event is ever emitted
(the `trigger` at line 31 sits after the await). -/
theorem C3_missing_start_never_settles :
    (process emptyIns emptyOuts okW acceptV 10 (tmplMap gOne) (some 99)
        (initEngine gOne)).1 = .ok none ∧
    (process emptyIns emptyOuts okW acceptV 10 (tmplMap gOne) (some 99)
        (initEngine gOne)).2.events = [] ∧
    (process emptyIns emptyOuts okW acceptV 10 (tmplMap gOne) (some 99)
        (initEngine gOne)).2.st = .abort ∧
    (process emptyIns emptyOuts okW acceptV 10 (tmplMap gOne) (some 99)
        (initEngine gOne)).2.onAbort = .blockedRun := by
  refine ⟨?_, ?_, ?_, ?_⟩ <;>
    simp [process, processStart, initEngine, initStore, initObjs, tmplMap,
      tmplMapFrom, validateSync, acceptV, detect, detectFrom, succsOf,
      abortWith, copyGraph, copyNodes, processStartNode, truthy, lookupId,
      processDone, pushEv, Store.get, emptyIns, emptyOuts, gOne, dummyNode,
      List.find?, List.findSome?]

/-- C8.  A second `run` call while one is in flight: from the PROCESSED
(Running) state, `process` returns `undefined` immediately after appending
only the advisory `console.warn` (lines 47-49) — state, heap, node map and
events untouched, so no component is invoked on behalf of the rejected
call; from the ABORT (Aborting) state it returns `undefined` with no
change at all. -/
theorem C8_busy_rejection (ins : Nat → List (String × List InConn))
    (outs : Nat → List (String × List OutConn))
    (w : String → InputData → OutData × Option Nat)
    (validator : List (Nat × Nat) → Bool × String)
    (fuel : Nat) (tmpl : List (Nat × Nat)) (startId : Option Nat)
    (s : EngineSt) :
    (s.st = .processed →
      process ins outs w validator fuel tmpl startId s
        = (.ok (some .undef), { s with warns := s.warns ++ [busyWarnMsg] })) ∧
    (s.st = .abort →
      process ins outs w validator fuel tmpl startId s = (.ok (some .undef), s)) := by
  constructor
  · intro h
    simp [process, processStart, h]
  · intro h
    simp [process, processStart, h]

/-- C9.  `processNode` explicitly tolerates an absent node (`!node`,
line 137) by returning `null`; but `forwardProcess` is then invoked on
the same absent node (line 161) and dereferences `node.outputs` without a
guard (line 154), raising a `TypeError` whenever the run is not already
aborting.  On a whole run over a graph with an output connection to a
missing node id, forward propagation therefore raises (the run's promise
rejects) instead of skipping the missing node. -/
theorem C9_forward_missing_node_raises (ins : Nat → List (String × List InConn))
    (outs : Nat → List (String × List OutConn))
    (w : String → InputData → OutData × Option Nat) :
    (∀ (fuel : Nat) (s : EngineSt), processNode ins w (fuel + 1) none s = (.ok none, s)) ∧
    (∀ (fuel : Nat) (s : EngineSt), s.st ≠ .abort →
      forwardProcess ins outs w (fuel + 1) none s = (.error .typeError, s)) ∧
    (process emptyIns outsDangling okW acceptV 10 (tmplMap gDangling) (some 1)
        (initEngine gDangling)).1 = .error .typeError := by
  refine ⟨?_, ?_, ?_⟩
  · intro fuel s
    rw [processNode.eq_def]
    dsimp only
    by_cases h : s.st = EState.abort
    · rw [if_pos h]
    · rw [if_neg h]
  · intro fuel s h
    rw [forwardProcess.eq_def]
    dsimp only
    rw [if_neg h]
  · simp [process, processStart, initEngine, initStore, initObjs, tmplMap,
      tmplMapFrom, validateSync, acceptV, detect, detectFrom, succsOf,
      abortWith, copyGraph, copyNodes, processStartNode, truthy, lookupId,
      lookupKey, processNode, processNodeWorker, extractInputData,
      extractInputs, extractConns, forwardProcess, forwardOutputs,
      forwardConns, lockSeq, unlock, EngineSt.updNode, Store.upd, okW,
      processUnreachable, sweepNodes, processDone, pushEv, Store.get,
      emptyIns, outsDangling, gDangling, dummyNode, List.find?,
      List.findSome?]

/-- C10.  Any falsy start id — `null`/`undefined` and also the number `0`
(`if (id)`, line 192) — skips the whole start phase: no lookup, no
missing-node error, no start traversal, no event; the run with start id
`0` is indistinguishable from a run with no start id at all, and the
graph is executed entirely by the unreached-node sweep. -/
theorem C10_falsy_start_id (ins : Nat → List (String × List InConn))
    (outs : Nat → List (String × List OutConn))
    (w : String → InputData → OutData × Option Nat)
    (validator : List (Nat × Nat) → Bool × String) :
    (∀ (fuel : Nat) (s : EngineSt),
      processStartNode ins outs w fuel (some 0) s = (.ok .done, s)) ∧
    (∀ (fuel : Nat) (tmpl : List (Nat × Nat)) (s : EngineSt),
      process ins outs w validator fuel tmpl (some 0) s
        = process ins outs w validator fuel tmpl none s) := by
  have h0 : ∀ (fuel : Nat) (s : EngineSt),
      processStartNode ins outs w fuel (some 0) s = (.ok .done, s) := by
    intro fuel s
    simp [processStartNode, truthy]
  have h1 : ∀ (fuel : Nat) (s : EngineSt),
      processStartNode ins outs w fuel none s = (.ok .done, s) := by
    intro fuel s
    simp [processStartNode, truthy]
  refine ⟨h0, ?_⟩
  intro fuel tmpl s
  simp only [process, h0, h1]

/-! ## Walk invariants for well-formed acyclic runs (claims C4 and C5)

The lemmas below follow the run's walk over the per-run copy.  `D` is the
run's node map (`this.data.nodes`), `tn` gives each node id's template
content, `rank` is a topological rank witnessing acyclicity (strictly
increasing along connections), and `B` bounds all ranks. -/

/-- No component worker ever raises. -/
def NoThrow (w : String → InputData → OutData × Option Nat) : Prop :=
  ∀ nm d, (w nm d).2 = none

/-- The structural well-formedness of the run's node map: lookups are
functional, addresses are not shared, every connection endpoint exists,
and `rank` increases along connections and is bounded by `B`. -/
def NodesOK (ins : Nat → List (String × List InConn))
    (outs : Nat → List (String × List OutConn))
    (D : List (Nat × Nat)) (tn : Nat → TNode) (rank : Nat → Nat) (B : Nat) : Prop :=
  (∀ i b, (i, b) ∈ D → lookupId D i = some b) ∧
  (∀ i b j, (i, b) ∈ D → (j, b) ∈ D → i = j) ∧
  (∀ i b, (i, b) ∈ D → rank i ≤ B) ∧
  (∀ i b, (i, b) ∈ D → ∀ pk ∈ ins (tn i).ins, ∀ c ∈ pk.2,
      (∃ b', (c.node, b') ∈ D) ∧ rank c.node < rank i) ∧
  (∀ i b, (i, b) ∈ D → ∀ pk ∈ outs (tn i).outs, ∀ c ∈ pk.2,
      (∃ b', (c.node, b') ∈ D) ∧ rank i < rank c.node)

/-- The state invariant along the walk: the node map is the run's copy, the
lifecycle state is Running or Aborting, `onAbort` holds nothing that could
resume suspended engine code, and every copy still carries its template
content with a live heap entry. -/
def ShapeOK (D : List (Nat × Nat)) (tn : Nat → TNode) (s : EngineSt) : Prop :=
  s.data = D ∧
  (s.st = .processed ∨ s.st = .abort) ∧
  (s.onAbort = .noop ∨ s.onAbort = .abandoned) ∧
  (∀ i b, (i, b) ∈ D → (s.store.get b).name = (tn i).name ∧
    (s.store.get b).inputsRef = (tn i).ins ∧
    (s.store.get b).outputsRef = (tn i).outs) ∧
  (∀ i b, (i, b) ∈ D → b ∈ s.store.objs.map Prod.fst)

/-- What one walk call does to the state, as seen from the run map: the
busy flags are restored, installed slots are never lost or replaced, and
an aborting run stays aborting. -/
def WalkRel (D : List (Nat × Nat)) (s s' : EngineSt) : Prop :=
  (∀ i b, (i, b) ∈ D → (s'.store.get b).busy = (s.store.get b).busy) ∧
  (∀ i b, (i, b) ∈ D → ∀ od, (s.store.get b).outputData = some od →
    (s'.store.get b).outputData = some od) ∧
  (s.st = .abort → s'.st = .abort)

/-- Busy nodes all have rank above `r`. -/
def BusyAbove (D : List (Nat × Nat)) (rank : Nat → Nat) (s : EngineSt)
    (r : Nat) : Prop :=
  ∀ i b, (i, b) ∈ D → (s.store.get b).busy = true → r < rank i

/-- Busy nodes all have rank at least `r`. -/
def BusyAtLeast (D : List (Nat × Nat)) (rank : Nat → Nat) (s : EngineSt)
    (r : Nat) : Prop :=
  ∀ i b, (i, b) ∈ D → (s.store.get b).busy = true → r ≤ rank i

/-- No node is busy. -/
def BusyNone (D : List (Nat × Nat)) (s : EngineSt) : Prop :=
  ∀ i b, (i, b) ∈ D → (s.store.get b).busy = false

theorem WalkRel_refl (D : List (Nat × Nat)) (s : EngineSt) : WalkRel D s s :=
  ⟨fun _ _ _ => rfl, fun _ _ _ _ h => h, fun h => h⟩

theorem WalkRel_trans {D : List (Nat × Nat)} {s1 s2 s3 : EngineSt}
    (h12 : WalkRel D s1 s2) (h23 : WalkRel D s2 s3) : WalkRel D s1 s3 := by
  obtain ⟨hb12, ho12, ha12⟩ := h12
  obtain ⟨hb23, ho23, ha23⟩ := h23
  refine ⟨?_, ?_, fun h => ha23 (ha12 h)⟩
  · intro i b hib
    rw [hb23 i b hib, hb12 i b hib]
  · intro i b hib od hod
    exact ho23 i b hib od (ho12 i b hib od hod)

theorem WalkRel_of_store_eq {D : List (Nat × Nat)} {s s' : EngineSt}
    (hst : s'.store = s.store) (hab : s.st = .abort → s'.st = .abort) :
    WalkRel D s s' :=
  ⟨fun _ _ _ => by rw [hst], fun _ _ _ _ h => by rw [hst]; exact h, hab⟩

theorem BusyAtLeast_transfer {D : List (Nat × Nat)} {rank : Nat → Nat}
    {s s' : EngineSt} {r : Nat} (h : BusyAtLeast D rank s r)
    (hrel : WalkRel D s s') : BusyAtLeast D rank s' r := by
  intro i b hib hbusy
  exact h i b hib (by rw [← hrel.1 i b hib]; exact hbusy)

theorem BusyAbove_transfer {D : List (Nat × Nat)} {rank : Nat → Nat}
    {s s' : EngineSt} {r : Nat} (h : BusyAbove D rank s r)
    (hrel : WalkRel D s s') : BusyAbove D rank s' r := by
  intro i b hib hbusy
  exact h i b hib (by rw [← hrel.1 i b hib]; exact hbusy)

theorem BusyNone_transfer {D : List (Nat × Nat)} {s s' : EngineSt}
    (h : BusyNone D s) (hrel : WalkRel D s s') : BusyNone D s' := by
  intro i b hib
  rw [hrel.1 i b hib]
  exact h i b hib

/-- `abort()` called without awaiting, from a walk state: the state becomes
(or stays) Aborting, and nothing else observable to the walk changes. -/
theorem abortDrop_shape {D : List (Nat × Nat)} {tn : Nat → TNode}
    {s : EngineSt} (h : ShapeOK D tn s) :
    ShapeOK D tn (abortDrop s) ∧ (abortDrop s).st = .abort ∧
      (abortDrop s).store = s.store ∧ (abortDrop s).data = s.data := by
  obtain ⟨hd, hst, hab, hsh, hhas⟩ := h
  rcases hst with hst | hst
  · have : abortDrop s = { s with st := .abort, onAbort := .abandoned } := by
      unfold abortDrop abortWith
      rw [hst]
    rw [this]
    exact ⟨⟨hd, Or.inr rfl, Or.inr rfl, hsh, hhas⟩, rfl, rfl, rfl⟩
  · have : abortDrop s = { s with onAbort := .abandoned } := by
      unfold abortDrop abortWith
      rw [hst]
      rcases hab with hab | hab <;> rw [hab] <;> rfl
    rw [this]
    exact ⟨⟨hd, Or.inr hst, Or.inr rfl, hsh, hhas⟩, hst, rfl, rfl⟩

/-- Heap writes that only touch execution-state fields preserve the shape
invariant. -/
theorem ShapeOK_updNode {D : List (Nat × Nat)} {tn : Nat → TNode}
    {s : EngineSt} (h : ShapeOK D tn s) (b0 : Nat) {f : NodeObj → NodeObj}
    (hf : ∀ o, (f o).name = o.name ∧ (f o).inputsRef = o.inputsRef ∧
      (f o).outputsRef = o.outputsRef) :
    ShapeOK D tn (s.updNode b0 f) := by
  obtain ⟨hd, hst, hab, hsh, hhas⟩ := h
  refine ⟨hd, hst, hab, ?_, ?_⟩
  · intro i b hib
    have hget : (s.updNode b0 f).store.get b = f (s.store.get b) ∨
        (s.updNode b0 f).store.get b = s.store.get b := by
      show (s.store.upd b0 f).get b = _ ∨ (s.store.upd b0 f).get b = _
      by_cases hbb : b = b0
      · subst hbb
        by_cases hmem : b ∈ s.store.objs.map Prod.fst
        · exact Or.inl (Store.get_upd_self _ _ hmem)
        · exact Or.inr (by rw [Store.upd_absent _ _ hmem])
      · exact Or.inr (Store.get_upd_ne _ _ hbb)
    rcases hget with hget | hget
    · rw [hget]
      obtain ⟨h1, h2, h3⟩ := hf (s.store.get b)
      obtain ⟨g1, g2, g3⟩ := hsh i b hib
      exact ⟨h1.trans g1, h2.trans g2, h3.trans g3⟩
    · rw [hget]
      exact hsh i b hib
  · intro i b hib
    show b ∈ (s.store.upd b0 f).objs.map Prod.fst
    rw [Store.upd_keys]
    exact hhas i b hib

section WalkOk

variable (ins : Nat → List (String × List InConn))
variable (outs : Nat → List (String × List OutConn))
variable (w : String → InputData → OutData × Option Nat)
variable (D : List (Nat × Nat)) (tn : Nat → TNode) (rank : Nat → Nat)

/-- The induction statement for `processNode` on a well-formed run: given
enough fuel for the node's rank and no busy node at or below that rank,
the call returns without raising, the invariants persist, the busy flags
and installed slots behave per `WalkRel`, and if the run was Running at
entry the node ends settled, the result is the slot (never `null`), and —
when no worker raises — the run is still Running. -/
def PullSpec (fuel : Nat) : Prop :=
  ∀ i b s, (i, b) ∈ D → rank i < fuel → ShapeOK D tn s →
    BusyAbove D rank s (rank i) →
    ∃ r s', processNode ins w fuel (some b) s = (.ok r, s') ∧
      ShapeOK D tn s' ∧ WalkRel D s s' ∧
      (s.st = .processed → ((s'.store.get b).outputData).isSome ∧ r ≠ none) ∧
      (s.st = .processed → NoThrow w → s'.st = .processed)

theorem pullConns_ok (fuel ρ : Nat) (IH : PullSpec ins w D tn rank fuel)
    (hfun : ∀ i b, (i, b) ∈ D → lookupId D i = some b) :
    ∀ (conns : List InConn) (s : EngineSt),
      ShapeOK D tn s →
      (∀ c ∈ conns, (∃ b', (c.node, b') ∈ D) ∧ rank c.node < fuel ∧
        rank c.node < ρ) →
      BusyAtLeast D rank s ρ →
      ∃ vals s', extractConns ins w fuel conns s = (.ok vals, s') ∧
        ShapeOK D tn s' ∧ WalkRel D s s' ∧
        (s.st = .processed → NoThrow w → s'.st = .processed) := by
  intro conns
  induction conns with
  | nil =>
    intro s hS _ _
    exact ⟨[], s, by simp [extractConns], hS, WalkRel_refl D s,
      fun h _ => h⟩
  | cons c rest ih =>
    intro s hS hconns hbusy
    obtain ⟨⟨b', hb'⟩, hcf, hcρ⟩ := hconns c (List.mem_cons_self c rest)
    have hlk : lookupId s.data c.node = some b' := by
      rw [hS.1]
      exact hfun _ _ hb'
    have hAbove : BusyAbove D rank s (rank c.node) := by
      intro j q hjq hq
      exact lt_of_lt_of_le hcρ (hbusy j q hjq hq)
    obtain ⟨r1, s1, hp, hS1, hrel1, hsome1, hkeep1⟩ :=
      IH c.node b' s hb' hcf hS hAbove
    simp only [extractConns]
    rw [hlk, hp]
    cases r1 with
    | none =>
      -- `processNode` returned `null`: the run was already Aborting at
      -- its entry (the node exists), so the `abort()` call here keeps the
      -- state Aborting and the still-Running conclusion is vacuous.
      dsimp only
      obtain ⟨hS1', hstab, hstoreab, hdataab⟩ := abortDrop_shape hS1
      have hrelab : WalkRel D s1 (abortDrop s1) :=
        WalkRel_of_store_eq hstoreab (fun _ => hstab)
      obtain ⟨vs, s2, he, hS2, hrel2, hkeep2⟩ := ih (abortDrop s1) hS1'
        (fun c' hc' => hconns c' (List.mem_cons_of_mem c hc'))
        (BusyAtLeast_transfer (BusyAtLeast_transfer hbusy hrel1) hrelab)
      rw [he]
      refine ⟨none :: vs, s2, rfl, hS2,
        WalkRel_trans (WalkRel_trans hrel1 hrelab) hrel2, ?_⟩
      intro hpr _
      exact absurd rfl (hsome1 hpr).2
    | some od =>
      dsimp only
      obtain ⟨vs, s2, he, hS2, hrel2, hkeep2⟩ := ih s1 hS1
        (fun c' hc' => hconns c' (List.mem_cons_of_mem c hc'))
        (BusyAtLeast_transfer hbusy hrel1)
      rw [he]
      refine ⟨lookupKey od c.output :: vs, s2, rfl, hS2,
        WalkRel_trans hrel1 hrel2, ?_⟩
      intro hpr hnt
      exact hkeep2 (hkeep1 hpr hnt) hnt

theorem pullInputs_ok (fuel ρ : Nat) (IH : PullSpec ins w D tn rank fuel)
    (hfun : ∀ i b, (i, b) ∈ D → lookupId D i = some b) :
    ∀ (inputs : List (String × List InConn)) (s : EngineSt),
      ShapeOK D tn s →
      (∀ pk ∈ inputs, ∀ c ∈ pk.2, (∃ b', (c.node, b') ∈ D) ∧
        rank c.node < fuel ∧ rank c.node < ρ) →
      BusyAtLeast D rank s ρ →
      ∃ idata s', extractInputs ins w fuel inputs s = (.ok idata, s') ∧
        ShapeOK D tn s' ∧ WalkRel D s s' ∧
        (s.st = .processed → NoThrow w → s'.st = .processed) := by
  intro inputs
  induction inputs with
  | nil =>
    intro s hS _ _
    exact ⟨[], s, by simp [extractInputs], hS, WalkRel_refl D s, fun h _ => h⟩
  | cons pk rest ih =>
    intro s hS hconns hbusy
    rcases pk with ⟨key, conns⟩
    obtain ⟨vals, s1, hc, hS1, hrel1, hkeep1⟩ :=
      pullConns_ok ins w D tn rank fuel ρ IH hfun conns s hS
        (fun c hcm => hconns (key, conns) (List.mem_cons_self _ rest) c hcm)
        hbusy
    simp only [extractInputs]
    rw [hc]
    dsimp only
    obtain ⟨idata, s2, he, hS2, hrel2, hkeep2⟩ := ih s1 hS1
      (fun pk' hpk' => hconns pk' (List.mem_cons_of_mem _ hpk'))
      (BusyAtLeast_transfer hbusy hrel1)
    rw [he]
    exact ⟨(key, vals) :: idata, s2, rfl, hS2, WalkRel_trans hrel1 hrel2,
      fun hpr hnt => hkeep2 (hkeep1 hpr hnt) hnt⟩

theorem pullWorker_ok (fuel : Nat) (IH : PullSpec ins w D tn rank fuel)
    (hfun : ∀ i b, (i, b) ∈ D → lookupId D i = some b)
    (hins : ∀ i b, (i, b) ∈ D → ∀ pk ∈ ins (tn i).ins, ∀ c ∈ pk.2,
      (∃ b', (c.node, b') ∈ D) ∧ rank c.node < rank i) :
    ∀ i b s, (i, b) ∈ D → rank i ≤ fuel → ShapeOK D tn s →
      BusyAtLeast D rank s (rank i) →
      ∃ out s', processNodeWorker ins w fuel b s = (.ok out, s') ∧
        ShapeOK D tn s' ∧ WalkRel D s s' ∧
        (s.st = .processed → NoThrow w → s'.st = .processed) := by
  intro i b s hib hle hS hbusy
  have hsock : (s.store.get b).inputsRef = (tn i).ins := (hS.2.2.2.1 i b hib).2.1
  obtain ⟨idata, s1, hx, hS1, hrel1, hkeep1⟩ :=
    pullInputs_ok ins w D tn rank fuel (rank i) IH hfun
      (ins ((s.store.get b).inputsRef)) s hS
      (by
        rw [hsock]
        intro pk hpk c hc
        obtain ⟨hex, hlt⟩ := hins i b hib pk hpk c hc
        exact ⟨hex, lt_of_lt_of_le hlt hle, hlt⟩)
      hbusy
  simp only [processNodeWorker, extractInputData]
  rw [hx]
  dsimp only
  cases hw : w ((s1.store.get b).name) idata with
  | mk out exc =>
    cases exc with
    | none => exact ⟨out, s1, rfl, hS1, hrel1, hkeep1⟩
    | some e =>
      dsimp only
      obtain ⟨hS1', hstab, hstoreab, hdataab⟩ := abortDrop_shape hS1
      refine ⟨out, pushEv (.warn e) (abortDrop s1), rfl, ?_, ?_, ?_⟩
      · obtain ⟨hd, hst, hab, hsh, hhas⟩ := hS1'
        exact ⟨hd, hst, hab, hsh, hhas⟩
      · refine WalkRel_trans hrel1 (WalkRel_of_store_eq ?_ ?_)
        · show (abortDrop s1).store = s1.store
          exact hstoreab
        · intro _
          exact hstab
      · intro hpr hnt
        have := hnt ((s1.store.get b).name) idata
        rw [hw] at this
        simp at this

theorem updNode_get_ne {s : EngineSt} {b q : Nat} (f : NodeObj → NodeObj)
    (h : q ≠ b) : (s.updNode b f).store.get q = s.store.get q :=
  Store.get_upd_ne _ _ h

theorem updNode_get_self {s : EngineSt} {b : Nat} (f : NodeObj → NodeObj)
    (h : b ∈ s.store.objs.map Prod.fst) :
    (s.updNode b f).store.get b = f (s.store.get b) :=
  Store.get_upd_self _ _ h

theorem updNode_keys (s : EngineSt) (b : Nat) (f : NodeObj → NodeObj) :
    (s.updNode b f).store.objs.map Prod.fst = s.store.objs.map Prod.fst :=
  Store.upd_keys _ _ _

theorem processNode_ok
    (hfun : ∀ i b, (i, b) ∈ D → lookupId D i = some b)
    (hinj : ∀ i b j, (i, b) ∈ D → (j, b) ∈ D → i = j)
    (hins : ∀ i b, (i, b) ∈ D → ∀ pk ∈ ins (tn i).ins, ∀ c ∈ pk.2,
      (∃ b', (c.node, b') ∈ D) ∧ rank c.node < rank i) :
    ∀ fuel, PullSpec ins w D tn rank fuel := by
  intro fuel
  induction fuel with
  | zero =>
    intro i b s hib hlt
    omega
  | succ fuel IH =>
    intro i b s hib hlt hS hbusy
    rw [processNode.eq_def]
    dsimp only
    by_cases hab : s.st = EState.abort
    · rw [if_pos hab]
      refine ⟨none, s, rfl, hS, WalkRel_refl D s, ?_, ?_⟩
      · intro hpr
        rw [hpr] at hab
        cases hab
      · intro hpr
        rw [hpr] at hab
        cases hab
    · rw [if_neg hab]
      have hnotbusy : (s.store.get b).busy = false := by
        cases hbb : (s.store.get b).busy with
        | false => rfl
        | true => exact absurd (hbusy i b hib hbb) (lt_irrefl _)
      have hlock : lockSeq b s = .ok (s.updNode b (fun n =>
          { n with unlockPool := some (n.unlockPool.getD []), busy := true })) := by
        unfold lockSeq
        rw [if_neg (fun hc => by rw [hnotbusy] at hc; exact Bool.noConfusion hc.1)]
      rw [hlock]
      dsimp only
      have hhasb : b ∈ s.store.objs.map Prod.fst := hS.2.2.2.2 i b hib
      have hS1 : ShapeOK D tn (s.updNode b (fun n =>
          { n with unlockPool := some (n.unlockPool.getD []), busy := true })) :=
        ShapeOK_updNode hS b (fun o => ⟨rfl, rfl, rfl⟩)
      have hget1 : (s.updNode b (fun n =>
          { n with unlockPool := some (n.unlockPool.getD []), busy := true })).store.get b
          = { s.store.get b with
              unlockPool := some ((s.store.get b).unlockPool.getD []), busy := true } :=
        updNode_get_self _ hhasb
      have hkeys1 : b ∈ (s.updNode b (fun n =>
          { n with unlockPool := some (n.unlockPool.getD []), busy := true
            })).store.objs.map Prod.fst := by
        rw [updNode_keys]
        exact hhasb
      cases ho : ((s.updNode b (fun n =>
          { n with unlockPool := some (n.unlockPool.getD []), busy := true
            })).store.get b).outputData with
      | some od =>
        dsimp only
        have hodp : (s.store.get b).outputData = some od := by
          rw [hget1] at ho
          exact ho
        refine ⟨some od, _, rfl,
          ShapeOK_updNode hS1 b (fun o => ⟨rfl, rfl, rfl⟩), ?_, ?_, ?_⟩
        · refine ⟨?_, ?_, fun h => h⟩
          · intro j q hjq
            show (((_ : EngineSt).updNode b _).store.get q).busy = _
            by_cases hqb : q = b
            · subst hqb
              rw [updNode_get_self _ hkeys1, hget1, hnotbusy]
            · rw [updNode_get_ne _ hqb, updNode_get_ne _ hqb]
          · intro j q hjq od' hod'
            show (((_ : EngineSt).updNode b _).store.get q).outputData = _
            by_cases hqb : q = b
            · subst hqb
              rw [updNode_get_self _ hkeys1, hget1]
              show (s.store.get q).outputData = _
              rw [hodp] at hod' ⊢
              exact hod'
            · rw [updNode_get_ne _ hqb, updNode_get_ne _ hqb]
              exact hod'
        · intro _
          constructor
          · show (((_ : EngineSt).updNode b _).store.get b).outputData.isSome = true
            rw [updNode_get_self _ hkeys1, hget1]
            show ((s.store.get b).outputData).isSome = true
            rw [hodp]
            rfl
          · exact fun h => Option.noConfusion h
        · intro hpr _
          exact hpr
      | none =>
        dsimp only
        have hbusy1 : BusyAtLeast D rank (s.updNode b (fun n =>
            { n with unlockPool := some (n.unlockPool.getD []), busy := true }))
            (rank i) := by
          intro j q hjq hq
          by_cases hqb : q = b
          · subst hqb
            have : j = i := hinj j q i hjq hib
            subst this
            exact le_refl _
          · rw [updNode_get_ne _ hqb] at hq
            exact le_of_lt (hbusy j q hjq hq)
        obtain ⟨out, s2, hw, hS2, hrel2, hkeep2⟩ :=
          pullWorker_ok ins w D tn rank fuel IH hfun hins i b _ hib
            (Nat.lt_succ_iff.mp hlt) hS1 hbusy1
        rw [hw]
        dsimp only
        have hhas2 : b ∈ s2.store.objs.map Prod.fst := hS2.2.2.2.2 i b hib
        have hS3 : ShapeOK D tn (s2.updNode b (fun n =>
            { n with outputData := some out })) :=
          ShapeOK_updNode hS2 b (fun o => ⟨rfl, rfl, rfl⟩)
        have hkeys3 : b ∈ ((s2.updNode b (fun n =>
            { n with outputData := some out })).store.objs.map Prod.fst) := by
          rw [updNode_keys]
          exact hhas2
        refine ⟨some out, _, rfl,
          ShapeOK_updNode hS3 b (fun o => ⟨rfl, rfl, rfl⟩), ?_, ?_, ?_⟩
        · refine ⟨?_, ?_, ?_⟩
          · intro j q hjq
            show ((((_ : EngineSt)).updNode b _).store.get q).busy = _
            by_cases hqb : q = b
            · subst hqb
              rw [updNode_get_self _ hkeys3]
              show false = (s.store.get q).busy
              rw [hnotbusy]
            · rw [updNode_get_ne _ hqb, updNode_get_ne _ hqb,
                hrel2.1 j q hjq, updNode_get_ne _ hqb]
          · intro j q hjq od' hod'
            show ((((_ : EngineSt)).updNode b _).store.get q).outputData = _
            by_cases hqb : q = b
            · subst hqb
              exfalso
              rw [hget1] at ho
              rw [hod'] at ho
              exact Option.noConfusion ho
            · rw [updNode_get_ne _ hqb, updNode_get_ne _ hqb]
              refine hrel2.2.1 j q hjq od' ?_
              rw [updNode_get_ne _ hqb]
              exact hod'
          · intro habort
            show s2.st = .abort
            exact hrel2.2.2 habort
        · intro _
          constructor
          · show ((((_ : EngineSt)).updNode b _).store.get b).outputData.isSome = true
            rw [updNode_get_self _ hkeys3, updNode_get_self _ hhas2]
            rfl
          · exact fun h => Option.noConfusion h
        · intro hpr hnt
          show s2.st = .processed
          exact hkeep2 hpr hnt

variable (B : Nat)

/-- The induction statement for `forwardProcess` on a well-formed run:
with fuel at least `2B + 2 - rank i`, the forward walk from node `i`
returns without raising and preserves the invariants. -/
def FwdSpec (fuel : Nat) : Prop :=
  ∀ i b s, (i, b) ∈ D → ShapeOK D tn s → BusyNone D s →
    2 * B + 2 ≤ fuel + rank i →
    ∃ r s', forwardProcess ins outs w fuel (some b) s = (.ok r, s') ∧
      ShapeOK D tn s' ∧ WalkRel D s s' ∧
      (s.st = .processed → NoThrow w → s'.st = .processed)

theorem fwdConns_ok (fuel ρ : Nat) (IHf : FwdSpec ins outs w D tn rank B fuel)
    (hpull : ∀ f, PullSpec ins w D tn rank f)
    (hfun : ∀ i b, (i, b) ∈ D → lookupId D i = some b)
    (hB : ∀ i b, (i, b) ∈ D → rank i ≤ B) (hρ : ρ ≤ B) :
    ∀ (conns : List OutConn) (s : EngineSt),
      ShapeOK D tn s → BusyNone D s →
      (∀ c ∈ conns, (∃ b', (c.node, b') ∈ D) ∧ ρ < rank c.node) →
      2 * B + 2 ≤ fuel + 1 + ρ →
      ∃ s', forwardConns ins outs w fuel conns s = (.ok (), s') ∧
        ShapeOK D tn s' ∧ WalkRel D s s' ∧
        (s.st = .processed → NoThrow w → s'.st = .processed) := by
  intro conns
  induction conns with
  | nil =>
    intro s hS _ _ _
    exact ⟨s, by simp [forwardConns], hS, WalkRel_refl D s, fun h _ => h⟩
  | cons c rest ih =>
    intro s hS hbn hconns hfuel
    obtain ⟨⟨b', hb'⟩, hcρ⟩ := hconns c (List.mem_cons_self c rest)
    have hlk : lookupId s.data c.node = some b' := by
      rw [hS.1]
      exact hfun _ _ hb'
    have hcB : rank c.node ≤ B := hB _ _ hb'
    have hcf : rank c.node < fuel := by omega
    obtain ⟨r1, s1, hp, hS1, hrel1, _, hkeep1⟩ :=
      hpull fuel c.node b' s hb' hcf hS (fun j q hjq hq => by
        rw [hbn j q hjq] at hq
        exact Bool.noConfusion hq)
    simp only [forwardConns]
    rw [hlk, hp]
    dsimp only
    have hbn1 : BusyNone D s1 := BusyNone_transfer hbn hrel1
    obtain ⟨r2, s2, hf, hS2, hrel2, hkeep2⟩ :=
      IHf c.node b' s1 hb' hS1 hbn1 (by omega)
    have hlk1 : lookupId s1.data c.node = some b' := by
      rw [hS1.1]
      exact hfun _ _ hb'
    rw [hlk1, hf]
    dsimp only
    obtain ⟨s3, he, hS3, hrel3, hkeep3⟩ := ih s2 hS2
      (BusyNone_transfer hbn1 hrel2)
      (fun c' hc' => hconns c' (List.mem_cons_of_mem c hc')) hfuel
    rw [he]
    exact ⟨s3, rfl, hS3, WalkRel_trans hrel1 (WalkRel_trans hrel2 hrel3),
      fun hpr hnt => hkeep3 (hkeep2 (hkeep1 hpr hnt) hnt) hnt⟩

theorem fwdOutputs_ok (fuel ρ : Nat) (IHf : FwdSpec ins outs w D tn rank B fuel)
    (hpull : ∀ f, PullSpec ins w D tn rank f)
    (hfun : ∀ i b, (i, b) ∈ D → lookupId D i = some b)
    (hB : ∀ i b, (i, b) ∈ D → rank i ≤ B) (hρ : ρ ≤ B) :
    ∀ (sockets : List (String × List OutConn)) (s : EngineSt),
      ShapeOK D tn s → BusyNone D s →
      (∀ pk ∈ sockets, ∀ c ∈ pk.2, (∃ b', (c.node, b') ∈ D) ∧ ρ < rank c.node) →
      2 * B + 2 ≤ fuel + 1 + ρ →
      ∃ s', forwardOutputs ins outs w fuel sockets s = (.ok (), s') ∧
        ShapeOK D tn s' ∧ WalkRel D s s' ∧
        (s.st = .processed → NoThrow w → s'.st = .processed) := by
  intro sockets
  induction sockets with
  | nil =>
    intro s hS _ _ _
    exact ⟨s, by simp [forwardOutputs], hS, WalkRel_refl D s, fun h _ => h⟩
  | cons pk rest ih =>
    intro s hS hbn hconns hfuel
    rcases pk with ⟨key, conns⟩
    obtain ⟨s1, hc, hS1, hrel1, hkeep1⟩ :=
      fwdConns_ok ins outs w D tn rank B fuel ρ IHf hpull hfun hB hρ conns s hS
        hbn (fun c hcm => hconns (key, conns) (List.mem_cons_self _ rest) c hcm)
        hfuel
    simp only [forwardOutputs]
    rw [hc]
    dsimp only
    obtain ⟨s2, he, hS2, hrel2, hkeep2⟩ := ih s1 hS1
      (BusyNone_transfer hbn hrel1)
      (fun pk' hpk' => hconns pk' (List.mem_cons_of_mem _ hpk')) hfuel
    rw [he]
    exact ⟨s2, rfl, hS2, WalkRel_trans hrel1 hrel2,
      fun hpr hnt => hkeep2 (hkeep1 hpr hnt) hnt⟩

theorem forwardProcess_ok
    (hpull : ∀ f, PullSpec ins w D tn rank f)
    (hfun : ∀ i b, (i, b) ∈ D → lookupId D i = some b)
    (hB : ∀ i b, (i, b) ∈ D → rank i ≤ B)
    (houts : ∀ i b, (i, b) ∈ D → ∀ pk ∈ outs (tn i).outs, ∀ c ∈ pk.2,
      (∃ b', (c.node, b') ∈ D) ∧ rank i < rank c.node) :
    ∀ fuel, FwdSpec ins outs w D tn rank B fuel := by
  intro fuel
  induction fuel with
  | zero =>
    intro i b s hib hS hbn hfuel
    have := hB i b hib
    omega
  | succ fuel IHf =>
    intro i b s hib hS hbn hfuel
    rw [forwardProcess.eq_def]
    dsimp only
    by_cases hab : s.st = EState.abort
    · rw [if_pos hab]
      refine ⟨none, s, rfl, hS, WalkRel_refl D s, ?_⟩
      intro hpr
      rw [hpr] at hab
      cases hab
    · rw [if_neg hab]
      have hsock : (s.store.get b).outputsRef = (tn i).outs :=
        (hS.2.2.2.1 i b hib).2.2
      obtain ⟨s1, hc, hS1, hrel1, hkeep1⟩ :=
        fwdOutputs_ok ins outs w D tn rank B fuel (rank i) IHf hpull hfun hB
          (hB i b hib) (outs ((s.store.get b).outputsRef)) s hS hbn
          (by
            rw [hsock]
            intro pk hpk c hc
            exact houts i b hib pk hpk c hc)
          (by omega)
      rw [hc]
      dsimp only
      exact ⟨some (), s1, rfl, hS1, hrel1, hkeep1⟩

theorem settled_transfer {s s' : EngineSt} {i b : Nat}
    (hrel : WalkRel D s s') (hib : (i, b) ∈ D)
    (h : ((s.store.get b).outputData).isSome = true) :
    ((s'.store.get b).outputData).isSome = true := by
  cases hod : (s.store.get b).outputData with
  | none => rw [hod] at h; cases h
  | some od => rw [hrel.2.1 i b hib od hod]; rfl

theorem sweepNodes_ok (fuel : Nat)
    (hpull : ∀ f, PullSpec ins w D tn rank f)
    (hfwd : ∀ f, FwdSpec ins outs w D tn rank B f)
    (hfun : ∀ i b, (i, b) ∈ D → lookupId D i = some b)
    (hB : ∀ i b, (i, b) ∈ D → rank i ≤ B)
    (hfuel : 2 * B + 2 ≤ fuel) :
    ∀ (ids : List Nat) (s : EngineSt),
      ShapeOK D tn s → BusyNone D s →
      (∀ i ∈ ids, ∃ b, (i, b) ∈ D) →
      ∃ s', sweepNodes ins outs w fuel ids s = (.ok (), s') ∧
        ShapeOK D tn s' ∧ WalkRel D s s' ∧
        (s.st = .processed → NoThrow w → s'.st = .processed) ∧
        (s.st = .processed → NoThrow w → ∀ i ∈ ids, ∀ b, (i, b) ∈ D →
          ((s'.store.get b).outputData).isSome = true) := by
  intro ids
  induction ids with
  | nil =>
    intro s hS _ _
    exact ⟨s, by simp [sweepNodes], hS, WalkRel_refl D s, fun h _ => h,
      fun _ _ i hi => absurd hi (List.not_mem_nil i)⟩
  | cons i rest ih =>
    intro s hS hbn hids
    obtain ⟨b, hib⟩ := hids i (List.mem_cons_self i rest)
    have hlk : lookupId s.data i = some b := by
      rw [hS.1]
      exact hfun _ _ hib
    simp only [sweepNodes]
    rw [hlk]
    dsimp only
    by_cases ho : (s.store.get b).outputData = none
    · rw [if_pos ho]
      have hrk : rank i < fuel := by
        have := hB i b hib
        omega
      obtain ⟨r1, s1, hp, hS1, hrel1, hset1, hkeep1⟩ :=
        hpull fuel i b s hib hrk hS (fun j q hjq hq => by
          rw [hbn j q hjq] at hq
          exact Bool.noConfusion hq)
      rw [hp]
      dsimp only
      have hbn1 : BusyNone D s1 := BusyNone_transfer hbn hrel1
      obtain ⟨r2, s2, hf, hS2, hrel2, hkeep2⟩ :=
        hfwd fuel i b s1 hib hS1 hbn1 (by
          have := hB i b hib
          omega)
      rw [hf]
      dsimp only
      obtain ⟨s3, he, hS3, hrel3, hkeep3, hall3⟩ := ih s2 hS2
        (BusyNone_transfer hbn1 hrel2)
        (fun i' hi' => hids i' (List.mem_cons_of_mem i hi'))
      rw [he]
      refine ⟨s3, rfl, hS3,
        WalkRel_trans hrel1 (WalkRel_trans hrel2 hrel3), ?_, ?_⟩
      · intro hpr hnt
        exact hkeep3 (hkeep2 (hkeep1 hpr hnt) hnt) hnt
      · intro hpr hnt i' hi' b' hib'
        rcases List.mem_cons.mp hi' with hi' | hi'
        · subst hi'
          have hbb' : b' = b := by
            have h1 := hfun i' b' hib'
            have h2 := hfun i' b hib
            rw [h1] at h2
            injection h2
          subst hbb'
          exact settled_transfer D (WalkRel_trans hrel2 hrel3) hib'
            ((hset1 hpr).1)
        · exact hall3 (hkeep2 (hkeep1 hpr hnt) hnt) hnt i' hi' b' hib'
    · rw [if_neg ho]
      obtain ⟨s3, he, hS3, hrel3, hkeep3, hall3⟩ := ih s hS hbn
        (fun i' hi' => hids i' (List.mem_cons_of_mem i hi'))
      rw [he]
      refine ⟨s3, rfl, hS3, hrel3, hkeep3, ?_⟩
      intro hpr hnt i' hi' b' hib'
      rcases List.mem_cons.mp hi' with hi' | hi'
      · subst hi'
        have hbb' : b' = b := by
          have h1 := hfun i' b' hib'
          have h2 := hfun i' b hib
          rw [h1] at h2
          injection h2
        subst hbb'
        refine settled_transfer D hrel3 hib' ?_
        cases hod : (s.store.get b').outputData with
        | none => exact absurd hod ho
        | some od => rfl
      · exact hall3 hpr hnt i' hi' b' hib'

end WalkOk
/-! ## From a template graph to the walk invariants -/

/-- The template content of a node id (total, keyed lookup in `g`). -/
def tnOf (g : List (Nat × TNode)) (i : Nat) : TNode :=
  ((g.find? (fun p => p.1 == i)).map Prod.snd).getD ⟨"", 0, 0⟩

theorem tnOf_of_mem {g : List (Nat × TNode)} {i : Nat} {t : TNode}
    (hnd : (g.map Prod.fst).Nodup) (h : (i, t) ∈ g) : tnOf g i = t := by
  induction g with
  | nil => simp at h
  | cons p rest ih =>
    rcases p with ⟨j, t0⟩
    simp only [List.map_cons, List.nodup_cons] at hnd
    rcases List.mem_cons.mp h with h | h
    · injection h with h1 h2
      subst h1; subst h2
      unfold tnOf
      rw [List.find?_cons_of_pos _ (by simp)]
      rfl
    · have hji : j ≠ i := by
        intro he
        exact hnd.1 (he ▸ List.mem_map_of_mem Prod.fst h)
      unfold tnOf
      rw [List.find?_cons_of_neg _ (by simp [hji])]
      exact ih hnd.2 h

theorem tmplMapFrom_fst (base : Nat) (g : List (Nat × TNode)) :
    (tmplMapFrom base g).map Prod.fst = g.map Prod.fst := by
  induction g generalizing base with
  | nil => rfl
  | cons p rest ih =>
    rcases p with ⟨i, t⟩
    simp only [tmplMapFrom, List.map_cons]
    rw [ih]

theorem initObjs_find :
    ∀ (g : List (Nat × TNode)) (base : Nat) {i a : Nat},
      (i, a) ∈ tmplMapFrom base g →
      ∃ t, (i, t) ∈ g ∧ (initObjs base g).find? (fun p => p.1 == a)
        = some (a, { name := t.name, inputsRef := t.ins, outputsRef := t.outs,
                     outputData := none, busy := false, unlockPool := none }) := by
  intro g
  induction g with
  | nil =>
    intro base i a h
    simp [tmplMapFrom] at h
  | cons p rest ih =>
    intro base i a h
    rcases p with ⟨j, t0⟩
    simp only [tmplMapFrom, List.mem_cons] at h
    rcases h with h | h
    · injection h with h1 h2
      subst h1; subst h2
      refine ⟨t0, List.mem_cons_self _ _, ?_⟩
      simp only [initObjs]
      rw [List.find?_cons_of_pos _ (by simp)]
    · have hge : base + 1 ≤ a := by
        have : a ∈ (tmplMapFrom (base + 1) rest).map Prod.snd :=
          List.mem_map_of_mem Prod.snd h
        rw [tmplMapFrom_snd] at this
        exact (List.mem_range'_1.mp this).1
      obtain ⟨t, ht, hfind⟩ := ih (base + 1) h
      refine ⟨t, List.mem_cons_of_mem _ ht, ?_⟩
      simp only [initObjs]
      rw [List.find?_cons_of_neg _ (by simp; omega)]
      exact hfind

theorem initStore_get {g : List (Nat × TNode)} {i a : Nat}
    (h : (i, a) ∈ tmplMap g) :
    ∃ t, (i, t) ∈ g ∧ (initStore g).get a
      = { name := t.name, inputsRef := t.ins, outputsRef := t.outs,
          outputData := none, busy := false, unlockPool := none } := by
  obtain ⟨t, ht, hfind⟩ := initObjs_find g 0 h
  exact ⟨t, ht, by unfold initStore Store.get; rw [hfind]; rfl⟩

theorem exists_of_mem_fst {α β : Type} {m : List (α × β)} {i : α}
    (h : i ∈ m.map Prod.fst) : ∃ x, (i, x) ∈ m := by
  obtain ⟨p, hp, he⟩ := List.mem_map.mp h
  exact ⟨p.2, by rw [← he]; exact hp⟩

theorem snd_nodup_inj {m : List (Nat × Nat)} (hnd : (m.map Prod.snd).Nodup)
    {i b j : Nat} (h1 : (i, b) ∈ m) (h2 : (j, b) ∈ m) : i = j := by
  have := List.inj_on_of_nodup_map hnd h1 h2 rfl
  injection this with h _

section Pipeline

variable (ins : Nat → List (String × List InConn))
variable (outs : Nat → List (String × List OutConn))
variable (w : String → InputData → OutData × Option Nat)
variable (validator : List (Nat × Nat) → Bool × String)

/-- The whole `process` call on a well-formed acyclic graph that passes
validation, from a fresh engine: the returned promise settles with
`"success"` or `"aborted"` (never `"error"`, never a rejection, never
pending), and when no worker raises it settles with `"success"` and every
node of the per-run copy ends with exactly one settled result. -/
theorem process_ok_pipeline (g : List (Nat × TNode)) (rank : Nat → Nat) (B : Nat)
    (startId : Option Nat)
    (hnd : (g.map Prod.fst).Nodup)
    (hv : (validator (tmplMap g)).1 = true)
    (hdet : detect outs (initStore g) (tmplMap g) = none)
    (hB : ∀ p ∈ g, rank p.1 ≤ B)
    (hgins : ∀ p ∈ g, ∀ pk ∈ ins (p.2).ins, ∀ c ∈ pk.2,
      (∃ t', (c.node, t') ∈ g) ∧ rank c.node < rank p.1)
    (hgouts : ∀ p ∈ g, ∀ pk ∈ outs (p.2).outs, ∀ c ∈ pk.2,
      (∃ t', (c.node, t') ∈ g) ∧ rank p.1 < rank c.node)
    (hstart : startId = none ∨ startId = some 0 ∨
      ∃ i, startId = some i ∧ i ∈ g.map Prod.fst) :
    ∃ o s', process ins outs w validator (2 * B + 2) (tmplMap g) startId
        (initEngine g) = (.ok (some o), s') ∧ (o = .success ∨ o = .aborted) ∧
      s'.data.map Prod.fst = g.map Prod.fst ∧
      (NoThrow w → o = .success ∧
        ∀ p ∈ s'.data, ((s'.store.get p.2).outputData).isSome = true) := by
  have hkeysD : (copyGraph (tmplMap g) (initStore g)).1.map Prod.fst
      = g.map Prod.fst := by
    rw [copyGraph_fst]
    exact tmplMapFrom_fst 0 g
  have hnodD : ((copyGraph (tmplMap g) (initStore g)).1.map Prod.fst).Nodup := by
    rw [hkeysD]; exact hnd
  have hsndD : ((copyGraph (tmplMap g) (initStore g)).1.map Prod.snd).Nodup := by
    rw [copyGraph_snd]
    exact List.nodup_range' _ _
  have hfun : ∀ i b, (i, b) ∈ (copyGraph (tmplMap g) (initStore g)).1 →
      lookupId (copyGraph (tmplMap g) (initStore g)).1 i = some b :=
    fun i b h => lookupId_of_mem hnodD h
  have hinj : ∀ i b j, (i, b) ∈ (copyGraph (tmplMap g) (initStore g)).1 →
      (j, b) ∈ (copyGraph (tmplMap g) (initStore g)).1 → i = j :=
    fun i b j h1 h2 => snd_nodup_inj hsndD h1 h2
  have htD : ∀ {i b}, (i, b) ∈ (copyGraph (tmplMap g) (initStore g)).1 →
      (i, tnOf g i) ∈ g := by
    intro i b h
    have : i ∈ g.map Prod.fst := by
      rw [← hkeysD]
      exact List.mem_map_of_mem Prod.fst h
    obtain ⟨t, ht⟩ := exists_of_mem_fst this
    rw [tnOf_of_mem hnd ht]
    exact ht
  have hgD : ∀ {j}, j ∈ g.map Prod.fst →
      ∃ b', (j, b') ∈ (copyGraph (tmplMap g) (initStore g)).1 := by
    intro j h
    exact exists_of_mem_fst (by rw [hkeysD]; exact h)
  have hBD : ∀ i b, (i, b) ∈ (copyGraph (tmplMap g) (initStore g)).1 →
      rank i ≤ B := fun i b h => hB _ (htD h)
  have hinsD : ∀ i b, (i, b) ∈ (copyGraph (tmplMap g) (initStore g)).1 →
      ∀ pk ∈ ins (tnOf g i).ins, ∀ c ∈ pk.2,
      (∃ b', (c.node, b') ∈ (copyGraph (tmplMap g) (initStore g)).1) ∧
        rank c.node < rank i := by
    intro i b h pk hpk c hc
    obtain ⟨⟨t', ht'⟩, hrk⟩ := hgins _ (htD h) pk hpk c hc
    exact ⟨hgD (List.mem_map_of_mem Prod.fst ht'), hrk⟩
  have houtsD : ∀ i b, (i, b) ∈ (copyGraph (tmplMap g) (initStore g)).1 →
      ∀ pk ∈ outs (tnOf g i).outs, ∀ c ∈ pk.2,
      (∃ b', (c.node, b') ∈ (copyGraph (tmplMap g) (initStore g)).1) ∧
        rank i < rank c.node := by
    intro i b h pk hpk c hc
    obtain ⟨⟨t', ht'⟩, hrk⟩ := hgouts _ (htD h) pk hpk c hc
    exact ⟨hgD (List.mem_map_of_mem Prod.fst ht'), hrk⟩
  have hget : ∀ i b, (i, b) ∈ (copyGraph (tmplMap g) (initStore g)).1 →
      (copyGraph (tmplMap g) (initStore g)).2.get b
        = { name := (tnOf g i).name, inputsRef := (tnOf g i).ins,
            outputsRef := (tnOf g i).outs, outputData := none,
            busy := false, unlockPool := none } := by
    intro i b h
    obtain ⟨_, _, a, ha, hg⟩ := copyGraph_get_new (initStore_storeLt g) h
    obtain ⟨t, ht, hg2⟩ := initStore_get ha
    rw [hg, hg2, tnOf_of_mem hnd ht]
  have hhasD : ∀ i b, (i, b) ∈ (copyGraph (tmplMap g) (initStore g)).1 →
      b ∈ (copyGraph (tmplMap g) (initStore g)).2.objs.map Prod.fst := by
    intro i b h
    rw [copyGraph_objs_fst]
    refine List.mem_append.mpr (Or.inr ?_)
    have : b ∈ (copyGraph (tmplMap g) (initStore g)).1.map Prod.snd :=
      List.mem_map_of_mem Prod.snd h
    rw [copyGraph_snd] at this
    exact this
  have hpull := processNode_ok ins w (copyGraph (tmplMap g) (initStore g)).1
    (tnOf g) rank hfun hinj hinsD
  have hfwd := forwardProcess_ok ins outs w (copyGraph (tmplMap g) (initStore g)).1
    (tnOf g) rank B hpull hfun hBD houtsD
  have hS3 : ShapeOK (copyGraph (tmplMap g) (initStore g)).1 (tnOf g)
      { st := .processed, onAbort := .noop, events := [], warns := [],
        data := (copyGraph (tmplMap g) (initStore g)).1,
        store := (copyGraph (tmplMap g) (initStore g)).2 } := by
    refine ⟨rfl, Or.inl rfl, Or.inl rfl, ?_, ?_⟩
    · intro i b hib
      show ((copyGraph (tmplMap g) (initStore g)).2.get b).name = _ ∧ _ ∧ _
      rw [hget i b hib]
      exact ⟨rfl, rfl, rfl⟩
    · intro i b hib
      exact hhasD i b hib
  have hBN3 : BusyNone (copyGraph (tmplMap g) (initStore g)).1
      { st := .processed, onAbort := .noop, events := [], warns := [],
        data := (copyGraph (tmplMap g) (initStore g)).1,
        store := (copyGraph (tmplMap g) (initStore g)).2 } := by
    intro i b hib
    show ((copyGraph (tmplMap g) (initStore g)).2.get b).busy = false
    rw [hget i b hib]
  have hstartRes : ∃ sS, processStartNode ins outs w (2 * B + 2) startId
      { st := .processed, onAbort := .noop, events := [], warns := [],
        data := (copyGraph (tmplMap g) (initStore g)).1,
        store := (copyGraph (tmplMap g) (initStore g)).2 } = (.ok .done, sS) ∧
      ShapeOK (copyGraph (tmplMap g) (initStore g)).1 (tnOf g) sS ∧
      WalkRel (copyGraph (tmplMap g) (initStore g)).1
        { st := .processed, onAbort := .noop, events := [], warns := [],
          data := (copyGraph (tmplMap g) (initStore g)).1,
          store := (copyGraph (tmplMap g) (initStore g)).2 } sS ∧
      (NoThrow w → sS.st = .processed) := by
    have hskip : ∀ sid, truthy sid = false →
        processStartNode ins outs w (2 * B + 2) sid
          { st := .processed, onAbort := .noop, events := [], warns := [],
            data := (copyGraph (tmplMap g) (initStore g)).1,
            store := (copyGraph (tmplMap g) (initStore g)).2 } = (.ok .done,
          { st := .processed, onAbort := .noop, events := [], warns := [],
            data := (copyGraph (tmplMap g) (initStore g)).1,
            store := (copyGraph (tmplMap g) (initStore g)).2 }) := by
      intro sid hsid
      unfold processStartNode
      rw [hsid]
      simp
    rcases hstart with hs | hs | ⟨i, hs, hkey⟩
    · subst hs
      exact ⟨_, hskip none rfl, hS3, WalkRel_refl _ _, fun _ => rfl⟩
    · subst hs
      exact ⟨_, hskip (some 0) rfl, hS3, WalkRel_refl _ _, fun _ => rfl⟩
    · subst hs
      by_cases hi0 : i = 0
      · subst hi0
        exact ⟨_, hskip (some 0) rfl, hS3, WalkRel_refl _ _, fun _ => rfl⟩
      · obtain ⟨b, hib⟩ := hgD hkey
        have hlk : lookupId (copyGraph (tmplMap g) (initStore g)).1 i = some b :=
          hfun i b hib
        have hrk : rank i < 2 * B + 2 := by
          have := hBD i b hib
          omega
        obtain ⟨r1, s4, hp, hS4, hrel4, _, hkeep4⟩ :=
          hpull (2 * B + 2) i b _ hib hrk hS3 (fun j q hjq hq => by
            rw [hBN3 j q hjq] at hq
            exact Bool.noConfusion hq)
        obtain ⟨r2, s5, hf, hS5, hrel5, hkeep5⟩ :=
          hfwd (2 * B + 2) i b s4 hib hS4
            (BusyNone_transfer hBN3 hrel4) (by
              have := hBD i b hib
              omega)
        refine ⟨s5, ?_, hS5, WalkRel_trans hrel4 hrel5, ?_⟩
        · have htr : truthy (some i) = true := by simp [truthy, hi0]
          have hlk' : lookupId
              ({ st := .processed, onAbort := .noop, events := [], warns := [],
                 data := (copyGraph (tmplMap g) (initStore g)).1,
                 store := (copyGraph (tmplMap g) (initStore g)).2 } : EngineSt).data i
              = some b := hlk
          unfold processStartNode
          rw [htr]
          dsimp only
          rw [hlk']
          dsimp only
          rw [hp]
          dsimp only
          rw [hf]
          rfl
        · intro hnt
          exact hkeep5 (hkeep4 rfl hnt) hnt
  obtain ⟨sS, hstartEq, hSS, hrelS, hkeepS⟩ := hstartRes
  have hBNS : BusyNone (copyGraph (tmplMap g) (initStore g)).1 sS :=
    BusyNone_transfer hBN3 hrelS
  obtain ⟨s6, hsweep, hS6, hrel6, hkeep6, hall6⟩ :=
    sweepNodes_ok ins outs w (copyGraph (tmplMap g) (initStore g)).1 (tnOf g)
      rank B (2 * B + 2) hpull hfwd hfun hBD (le_refl _)
      (sS.data.map Prod.fst) sS hSS hBNS
      (fun i hi => by
        rw [hSS.1] at hi
        exact exists_of_mem_fst hi)
  have hproc : process ins outs w validator (2 * B + 2) (tmplMap g) startId
      (initEngine g) =
      ((.ok (some (if (processDone s6).1 then Outcome.success else .aborted))),
        (processDone s6).2) := by
    unfold process
    rw [show processStart (initEngine g) = (true,
      { st := .processed, onAbort := .noop, events := [], warns := [],
        data := [], store := initStore g }) from rfl]
    dsimp only
    rw [show validateSync outs validator (tmplMap g)
        { st := .processed, onAbort := .noop, events := [], warns := [],
          data := [], store := initStore g } =
        { st := .processed, onAbort := .noop, events := [], warns := [],
          data := [], store := initStore g } by
      unfold validateSync
      rw [if_neg (by rw [hv]; exact fun h => Bool.noConfusion h)]
      dsimp only
      rw [hdet]]
    dsimp only
    rw [hstartEq]
    dsimp only
    unfold processUnreachable
    rw [hsweep]
  have hstS6 : s6.st = .processed ∨ s6.st = .abort := hS6.2.1
  have hdone : (processDone s6).2.store = s6.store ∧
      (processDone s6).2.data = s6.data := processDone_store s6
  refine ⟨if (processDone s6).1 then Outcome.success else .aborted,
    (processDone s6).2, hproc, by
      by_cases h : (processDone s6).1 <;> simp [h],
    by rw [hdone.2, hS6.1]; exact hkeysD, ?_⟩
  intro hnt
  have hstS6p : s6.st = .processed := hkeep6 (hkeepS hnt) hnt
  have hsucc : (processDone s6).1 = true := by
    unfold processDone
    rw [if_pos (by rw [hstS6p]; exact fun h => EState.noConfusion h)]
  constructor
  · rw [hsucc]
    rfl
  · intro p hp
    rw [hdone.2, hS6.1] at hp
    have := hall6 (hkeepS hnt) hnt p.1 (by
      rw [hSS.1]
      exact List.mem_map_of_mem Prod.fst hp) p.2 hp
    rw [hdone.1]
    exact this

end Pipeline

/-! ## Claim C1: the single-flight guarantee under concurrency

A demonstration run of the protocol with two logically concurrent
requesters of the same node, used as the concrete instance: the second
requester parks in `unlockPool`, is woken by `unlock`, and observes the
slot the first requester installed. -/

/-- Step 1: a first `processNode` call (task 1) arrives for node 0. -/
def sfA : SingleFlight.SFSt :=
  { gates := fun _ => {}, tasks := [⟨1, 0, .ready⟩] }

/-- Step 2: a second, concurrent call (task 2) arrives for the same node. -/
def sfB : SingleFlight.SFSt :=
  { gates := fun _ => {}, tasks := [⟨1, 0, .ready⟩, ⟨2, 0, .ready⟩] }

/-- Step 3: task 1 runs the `lock` executor and passes (gate free). -/
def sfC : SingleFlight.SFSt :=
  { gates := SingleFlight.updG sfB.gates 0 { sfB.gates 0 with busy := true },
    tasks := SingleFlight.setPh sfB.tasks 1 .locked }

/-- Step 4: task 2 runs the `lock` executor, sees `busy && !outputData`
and parks in the pool (line 84). -/
def sfD : SingleFlight.SFSt :=
  { gates := SingleFlight.updG sfC.gates 0
      { sfC.gates 0 with pool := (sfC.gates 0).pool ++ [2], busy := true },
    tasks := SingleFlight.setPh sfC.tasks 2 .waiting }

/-- Step 5: task 1's continuation finds no slot, invokes the worker and
installs the slot (line 143); `unlock` wakes task 2 (line 93). -/
def sfE : SingleFlight.SFSt :=
  { gates := SingleFlight.updG sfD.gates 0
      { slot := some 1, busy := false, pool := [],
        invokes := (sfD.gates 0).invokes + 1 },
    tasks := SingleFlight.setPh (SingleFlight.wake sfD.tasks (sfD.gates 0).pool)
      1 (.done 1) }

/-- Step 6: task 2's continuation finds the installed slot and returns it
without invoking the worker (line 142 fails, line 147 returns). -/
def sfF : SingleFlight.SFSt :=
  { gates := SingleFlight.updG sfE.gates 0
      { sfE.gates 0 with busy := false, pool := [] },
    tasks := SingleFlight.setPh (SingleFlight.wake sfE.tasks (sfE.gates 0).pool)
      2 (.done 1) }

theorem sfF_reach : SingleFlight.Reach sfF :=
  Relation.ReflTransGen.tail
    (Relation.ReflTransGen.tail
      (Relation.ReflTransGen.tail
        (Relation.ReflTransGen.tail
          (Relation.ReflTransGen.tail
            (Relation.ReflTransGen.single
              (SingleFlight.Step.spawn SingleFlight.init 1 0 (by decide)))
            (SingleFlight.Step.spawn sfA 2 0 (by decide)))
          (SingleFlight.Step.lockPass sfB 1 0 (by decide) (by decide)))
        (SingleFlight.Step.lockWait sfC 2 0 (by decide) (by decide) (by decide)))
      (SingleFlight.Step.install sfD 1 0 (by decide) (by decide)))
    (SingleFlight.Step.hit sfE 2 0 1 (by decide) (by decide))

/-- C1.  In every reachable state of the `lock`/`unlock`/`processNode`
gate protocol under arbitrary concurrent interleavings: every node's
worker has been invoked at most once; a node whose result slot is not yet
installed has seen no invocation at all; and every `processNode` call
that has returned got exactly the installed slot of its node, whose
worker was invoked exactly once — by the one caller that installed it. -/
theorem C1_single_flight {s : SingleFlight.SFSt} (h : SingleFlight.Reach s) :
    (∀ n, (s.gates n).invokes ≤ 1) ∧
    (∀ n, (s.gates n).slot = none → (s.gates n).invokes = 0) ∧
    (∀ t ∈ s.tasks, ∀ v, t.ph = .done v →
      (s.gates t.node).slot = some v ∧ (s.gates t.node).invokes = 1) := by
  obtain ⟨huniq, hcnt, hdone⟩ := SingleFlight.Inv_reach h
  refine ⟨fun n => ?_, fun n hn => ?_, fun t ht v hv => ?_⟩
  · rw [hcnt n]
    by_cases hsl : ((s.gates n).slot).isSome <;> simp [hsl]
  · rw [hcnt n, hn]
    rfl
  · have hs := hdone t ht v hv
    refine ⟨hs, ?_⟩
    rw [hcnt t.node, hs]
    rfl

/-- The guarantee on the demonstrated two-requester run: across both
concurrent requesters of node 0 the worker ran exactly once, and the
slot both requesters returned is the one installed by task 1. -/
theorem C1_single_flight_witness :
    (sfF.gates 0).invokes ≤ 1 ∧ (sfF.gates 0).slot = some 1 ∧
      (sfF.gates 0).invokes = 1 := by
  have h := C1_single_flight sfF_reach
  have h2 := h.2.2 ⟨2, 0, .done 1⟩ (by decide) 1 rfl
  exact ⟨h.1 0, h2.1, h2.2⟩

/-! ## Claim C4: a raising worker is contained at its node -/

/-- C4.  When a node's component worker raises (`w` returns the container
filled so far and `some e`): (a) `processWorker` (lines 126-133) catches
the failure at the node — it returns normally with the partially-filled
container, triggers `abort()` on the run and emits a `'warn'` event
carrying the raw raised value, with no other state change (in particular
the heap, hence every already-installed result, is untouched — no
rollback); (b) `processNode` (lines 142-147) keeps that container as the
node's final memoized result slot; (c) the run call itself never raises
to its caller: over a well-formed acyclic admitted graph the promise
settles with `"success"` or `"aborted"` whatever the workers do. -/
theorem C4_worker_failure_contained
    (ins : Nat → List (String × List InConn))
    (outs : Nat → List (String × List OutConn))
    (w : String → InputData → OutData × Option Nat)
    (validator : List (Nat × Nat) → Bool × String)
    (fuel a : Nat) (s sL s1 : EngineSt) (idata : InputData)
    (out : OutData) (e : Nat)
    (g : List (Nat × TNode)) (rank : Nat → Nat) (B : Nat) (startId : Option Nat)
    (hst2 : ¬s.st = .abort)
    (hlock : lockSeq a s = .ok sL)
    (hslot : (sL.store.get a).outputData = none)
    (hex : extractInputData ins w fuel a sL = (.ok idata, s1))
    (hw : w ((s1.store.get a).name) idata = (out, some e))
    (hst1 : s1.st = .processed)
    (hmem : a ∈ s1.store.objs.map Prod.fst)
    (hnd : (g.map Prod.fst).Nodup)
    (hv : (validator (tmplMap g)).1 = true)
    (hdet : detect outs (initStore g) (tmplMap g) = none)
    (hB : ∀ p ∈ g, rank p.1 ≤ B)
    (hgins : ∀ p ∈ g, ∀ pk ∈ ins (p.2).ins, ∀ c ∈ pk.2,
      (∃ t', (c.node, t') ∈ g) ∧ rank c.node < rank p.1)
    (hgouts : ∀ p ∈ g, ∀ pk ∈ outs (p.2).outs, ∀ c ∈ pk.2,
      (∃ t', (c.node, t') ∈ g) ∧ rank p.1 < rank c.node)
    (hstart : startId = none ∨ startId = some 0 ∨
      ∃ i, startId = some i ∧ i ∈ g.map Prod.fst) :
    processNodeWorker ins w fuel a sL
      = (.ok out, { s1 with st := .abort, onAbort := .abandoned,
                            events := s1.events ++ [.warn e] }) ∧
    ((processNode ins w (fuel + 1) (some a) s).1 = .ok (some out) ∧
      ((processNode ins w (fuel + 1) (some a) s).2.store.get a).outputData
        = some out) ∧
    (∃ o s', process ins outs w validator (2 * B + 2) (tmplMap g) startId
        (initEngine g) = (.ok (some o), s') ∧ (o = .success ∨ o = .aborted)) := by
  have ha : processNodeWorker ins w fuel a sL
      = (.ok out, { s1 with st := .abort, onAbort := .abandoned,
                            events := s1.events ++ [.warn e] }) := by
    rw [processNodeWorker.eq_def]
    rw [hex]
    dsimp only
    rw [hw]
    dsimp only
    unfold pushEv abortDrop abortWith
    rw [hst1]
  have hpn : processNode ins w (fuel + 1) (some a) s
      = (.ok (some out), unlock a
          ((({ s1 with st := .abort, onAbort := .abandoned,
                       events := s1.events ++ [.warn e] } : EngineSt)).updNode a
            (fun n => { n with outputData := some out }))) := by
    rw [processNode.eq_def]
    dsimp only
    rw [if_neg hst2]
    rw [hlock]
    dsimp only
    rw [hslot]
    dsimp only
    rw [ha]
  refine ⟨ha, ⟨?_, ?_⟩, ?_⟩
  · rw [hpn]
  · rw [hpn]
    show ((((({ s1 with st := .abort, onAbort := .abandoned,
                        events := s1.events ++ [.warn e] } : EngineSt)).updNode a
          (fun n => { n with outputData := some out })).updNode a
            (fun n => { n with unlockPool := some [], busy := false })).store.get
              a).outputData = some out
    unfold EngineSt.updNode
    dsimp only
    rw [Store.get_upd_self _ _ (by rw [Store.upd_keys]; exact hmem)]
    rw [Store.get_upd_self _ _ hmem]
  · obtain ⟨o, s', hp, hor, _, _⟩ := process_ok_pipeline ins outs w validator g
      rank B startId hnd hv hdet hB hgins hgouts hstart
    exact ⟨o, s', hp, hor⟩

/-- A component worker that fills one output entry and then raises the
value 9: the partially-filled container is `[("part", 1)]`. -/
def badW : String → InputData → OutData × Option Nat :=
  fun _ _ => ([("part", 1)], some 9)

/-- A mid-run state: one fresh node copy at address 0 (no sockets, slot
empty, gate free), run state PROCESSED. -/
def sW : EngineSt :=
  { st := .processed, onAbort := .noop, events := [], warns := [],
    data := [(1, 0)],
    store := { objs := [(0, { name := "c", inputsRef := 0, outputsRef := 0,
                              outputData := none, busy := false,
                              unlockPool := none })], next := 1 } }

/-- `sW` after `lock(node)` (line 140): gate claimed, pool initialized. -/
def sLW : EngineSt :=
  { st := .processed, onAbort := .noop, events := [], warns := [],
    data := [(1, 0)],
    store := { objs := [(0, { name := "c", inputsRef := 0, outputsRef := 0,
                              outputData := none, busy := true,
                              unlockPool := some [] })], next := 1 } }

/-- Claim C4 on the concrete raising worker `badW`: the worker call is
caught at the node (aborting the run, emitting `'warn' 9`, keeping the
partial container `[("part", 1)]`), `processNode` memoizes that container,
and a whole run over `gOne` with `badW` still settles cleanly. -/
theorem C4_worker_failure_contained_witness :
    processNodeWorker emptyIns badW 1 0 sLW
      = (.ok [("part", 1)], { sLW with st := .abort, onAbort := .abandoned,
                                       events := sLW.events ++ [.warn 9] }) ∧
    ((processNode emptyIns badW (1 + 1) (some 0) sW).1
        = .ok (some [("part", 1)]) ∧
      ((processNode emptyIns badW (1 + 1) (some 0) sW).2.store.get 0).outputData
        = some [("part", 1)]) ∧
    (∃ o s', process emptyIns emptyOuts badW acceptV (2 * 0 + 2) (tmplMap gOne)
        none (initEngine gOne) = (.ok (some o), s') ∧
      (o = .success ∨ o = .aborted)) :=
  C4_worker_failure_contained emptyIns emptyOuts badW acceptV 1 0 sW sLW sLW
    [] [("part", 1)] 9 gOne (fun _ => 0) 0 none
    (by decide) (by decide) (by decide)
    (by simp [extractInputData, extractInputs, emptyIns, sLW, Store.get,
      List.find?])
    rfl rfl (by decide) (by decide) rfl (by decide) (by decide)
    (by intro p hp pk hpk c hc; simp [emptyIns] at hpk)
    (by intro p hp pk hpk c hc; simp [emptyOuts] at hpk)
    (Or.inl rfl)

/-! ## Claim C5: acyclic graphs run to success with full coverage -/

/-- C5.  For every acyclic graph accepted by validation (the validator
passes and the cycle detector finds nothing) whose workers do not raise:
a run from a fresh engine settles with `"success"`, and at completion the
per-run graph copy holds one entry per template node id — including nodes
with no connections to or from the rest of the graph and nodes
unreachable from the start node, which the unreached-node sweep
executes — each carrying exactly one settled memoized result. -/
theorem C5_acyclic_success
    (ins : Nat → List (String × List InConn))
    (outs : Nat → List (String × List OutConn))
    (w : String → InputData → OutData × Option Nat)
    (validator : List (Nat × Nat) → Bool × String)
    (g : List (Nat × TNode)) (rank : Nat → Nat) (B : Nat) (startId : Option Nat)
    (hnd : (g.map Prod.fst).Nodup)
    (hv : (validator (tmplMap g)).1 = true)
    (hdet : detect outs (initStore g) (tmplMap g) = none)
    (hB : ∀ p ∈ g, rank p.1 ≤ B)
    (hgins : ∀ p ∈ g, ∀ pk ∈ ins (p.2).ins, ∀ c ∈ pk.2,
      (∃ t', (c.node, t') ∈ g) ∧ rank c.node < rank p.1)
    (hgouts : ∀ p ∈ g, ∀ pk ∈ outs (p.2).outs, ∀ c ∈ pk.2,
      (∃ t', (c.node, t') ∈ g) ∧ rank p.1 < rank c.node)
    (hstart : startId = none ∨ startId = some 0 ∨
      ∃ i, startId = some i ∧ i ∈ g.map Prod.fst)
    (hnt : NoThrow w) :
    ∃ s', process ins outs w validator (2 * B + 2) (tmplMap g) startId
        (initEngine g) = (.ok (some .success), s') ∧
      s'.data.map Prod.fst = g.map Prod.fst ∧
      (s'.data.map Prod.fst).Nodup ∧
      ∀ p ∈ s'.data, ((s'.store.get p.2).outputData).isSome = true := by
  obtain ⟨o, s', hp, _, hmap, himp⟩ := process_ok_pipeline ins outs w validator
    g rank B startId hnd hv hdet hB hgins hgouts hstart
  obtain ⟨ho, hall⟩ := himp hnt
  subst ho
  exact ⟨s', hp, hmap, by rw [hmap]; exact hnd, hall⟩

/-- Input sockets for the C5 instance: the inputs container at reference 2
has one socket fed by node 1's `"val"` output. -/
def insC5 : Nat → List (String × List InConn) := fun r =>
  if r = 2 then [("in", [⟨1, "val"⟩])] else []

/-- Output sockets for the C5 instance: the outputs container at
reference 1 has one socket feeding node 2's `"in"` input. -/
def outsC5 : Nat → List (String × List OutConn) := fun r =>
  if r = 1 then [("val", [⟨2, "in"⟩])] else []

/-- Three-node template: node 1 feeds node 2 through one connection;
node 3 is a disconnected island, unreachable from start node 1. -/
def gC5 : List (Nat × TNode) :=
  [(1, ⟨"a", 1, 1⟩), (2, ⟨"b", 2, 2⟩), (3, ⟨"a", 3, 3⟩)]

/-- Claim C5 on the concrete acyclic graph `gC5` (start node 1, island
node 3): the run settles with `"success"` and all three nodes end with a
settled result. -/
theorem C5_acyclic_success_witness :
    ∃ s', process insC5 outsC5 okW acceptV (2 * 3 + 2) (tmplMap gC5) (some 1)
        (initEngine gC5) = (.ok (some .success), s') ∧
      s'.data.map Prod.fst = gC5.map Prod.fst ∧
      (s'.data.map Prod.fst).Nodup ∧
      ∀ p ∈ s'.data, ((s'.store.get p.2).outputData).isSome = true :=
  C5_acyclic_success insC5 outsC5 okW acceptV gC5 (fun i => i) 3 (some 1)
    (by decide) rfl (by decide) (by decide)
    (by
      intro p hp pk hpk c hc
      simp only [gC5, List.mem_cons, List.not_mem_nil, or_false] at hp
      rcases hp with rfl | rfl | rfl
      · simp [insC5] at hpk
      · simp only [insC5, List.mem_cons, List.not_mem_nil, or_false,
          if_pos, reduceIte] at hpk
        subst hpk
        simp only [List.mem_cons, List.not_mem_nil, or_false] at hc
        subst hc
        exact ⟨⟨⟨"a", 1, 1⟩, by decide⟩, by decide⟩
      · simp [insC5] at hpk)
    (by
      intro p hp pk hpk c hc
      simp only [gC5, List.mem_cons, List.not_mem_nil, or_false] at hp
      rcases hp with rfl | rfl | rfl
      · simp only [outsC5, List.mem_cons, List.not_mem_nil, or_false,
          if_pos, reduceIte] at hpk
        subst hpk
        simp only [List.mem_cons, List.not_mem_nil, or_false] at hc
        subst hc
        exact ⟨⟨⟨"b", 2, 2⟩, by decide⟩, by decide⟩
      · simp [outsC5] at hpk
      · simp [outsC5] at hpk)
    (Or.inr (Or.inr ⟨1, rfl, by decide⟩))
    (fun _ _ => rfl)

/-! ## Claim C7: socket input lists preserve declared connection order -/

/-- C7.  For a socket with declared connection list `conns`: the
concurrently-settling `Promise.all` callbacks (lines 104-113, one per
connection, each suspending on its upstream node) may settle in any
order — any permutation of the positions — yet the collected list places
each connection's resolved value at the connection's own declared
position; and the interpreter's resolution of a socket (`extractConns`)
yields exactly one entry per declared connection. -/
theorem C7_socket_order_preserved
    (ins : Nat → List (String × List InConn))
    (w : String → InputData → OutData × Option Nat)
    (conns : List InConn) (f : InConn → Option Nat) (order : List Nat)
    (fuel : Nat) (s : EngineSt) (vals : List (Option Nat)) (s' : EngineSt)
    (hperm : order.Perm (List.range conns.length))
    (hex : extractConns ins w fuel conns s = (.ok vals, s')) :
    PromiseAll.runSched conns f order (List.replicate conns.length none)
      = conns.map (fun c => some (f c)) ∧
    vals.length = conns.length :=
  ⟨PromiseAll.runSched_perm conns f order hperm,
   extractConns_length ins w fuel conns s vals s' hex⟩

/-- A two-connection socket for the C7 instance. -/
def connsC7 : List InConn := [⟨7, "a"⟩, ⟨8, "b"⟩]

/-- The resolved value of each C7 connection in the `Promise.all` model. -/
def fC7 : InConn → Option Nat := fun c => some c.node

/-- A minimal running state for the C7 socket resolution. -/
def sC7 : EngineSt :=
  { st := .processed, onAbort := .noop, events := [], warns := [],
    data := [], store := { objs := [], next := 0 } }

/-- Claim C7 on the two-connection socket `connsC7` with the callbacks
settling in reversed order `[1, 0]`: the collected list is still in
declared order, and the interpreter produced one entry per connection. -/
theorem C7_socket_order_preserved_witness :
    PromiseAll.runSched connsC7 fC7 [1, 0] (List.replicate connsC7.length none)
      = connsC7.map (fun c => some (fC7 c)) ∧
    ([none, none] : List (Option Nat)).length = connsC7.length :=
  C7_socket_order_preserved emptyIns okW connsC7 fC7 [1, 0] 1 sC7 [none, none]
    { sC7 with st := .abort, onAbort := .abandoned }
    (by decide)
    (by simp [extractConns, processNode, lookupId, abortDrop, abortWith,
      fireCont, sC7, connsC7, emptyIns, okW, List.find?])
